import Mathlib

/-!
Verification of the `DependencyGraph` engine: node/edge storage kept in two
mirrored adjacency indexes, plus the iterative (explicit-stack) depth-first
traversal used by `getDependenciesOf`, `getDependentsOf` and
`getOverallOrder`, including cycle detection.

JavaScript insertion-ordered `Set`s are embedded as duplicate-free `List`s
(`add` appends when absent, `delete` removes the sole occurrence) and
insertion-ordered `Map`s as association lists.  The unbounded `while` loop of
the traversal is embedded with an explicit fuel parameter; termination is then
the theorem that some fuel always suffices.
-/

set_option maxHeartbeats 1000000
set_option linter.unusedSectionVars false

variable {α : Type} [DecidableEq α]

/-- A JS `Set.add`: appends the element when absent, otherwise leaves the
insertion-ordered set unchanged. -/
def jsSetAdd (s : List α) (x : α) : List α :=
  if x ∈ s then s else s ++ [x]

/-- A JS `Map.get` on an insertion-ordered association list. -/
def mapGet (m : List (α × List α)) (k : α) : Option (List α) :=
  (m.find? (fun p => decide (p.1 = k))).map (fun p => p.2)

/-- `Map.get` followed by the source's non-null assertion, defaulting to the
empty set (the default is never exercised on well-formed graphs). -/
def mapGetD (m : List (α × List α)) (k : α) : List α :=
  (mapGet m k).getD []

/-- A JS `Map.set`: replaces the value in place when the key exists and
appends a fresh entry otherwise. -/
def mapSet (m : List (α × List α)) (k : α) (v : List α) : List (α × List α) :=
  if (m.find? (fun p => decide (p.1 = k))).isSome then
    m.map (fun p => if p.1 = k then (k, v) else p)
  else m ++ [(k, v)]

/-- `map.get(k)?.mutation` — updates the stored set in place when the key
exists and does nothing otherwise (the optional-chaining pattern). -/
def mapUpdate (m : List (α × List α)) (k : α) (f : List α → List α) :
    List (α × List α) :=
  m.map (fun p => if p.1 = k then (p.1, f p.2) else p)

/-- A JS `Map.delete`. -/
def mapDelete (m : List (α × List α)) (k : α) : List (α × List α) :=
  m.filter (fun p => decide (p.1 ≠ k))

/-- The `DependencyGraph` state: the node set, the two adjacency indexes
(`_outgoingEdges`, `_incomingEdges`) and the `allowCircularDependencies`
configuration flag. -/
structure DependencyGraph (α : Type) where
  nodes : List α
  outgoingEdges : List (α × List α)
  incomingEdges : List (α × List α)
  allowCircularDependencies : Bool

/-- The freshly constructed graph: no nodes, no edges, cycles disallowed. -/
def DependencyGraph.empty : DependencyGraph α :=
  DependencyGraph.mk [] [] [] false

/-- The errors the graph operations can raise: `NodeNotFoundError` for a
missing endpoint or query node, and `CircularDependencyError` carrying the
path on which the cycle was detected. -/
inductive GraphError (α : Type) where
  | nodeNotFound : GraphError α
  | circular (path : List α) : GraphError α
deriving DecidableEq

/-- The `node` field of a `CircularDependencyError`: the last element of the
carried path (`path[path.length - 1]`). -/
def circularErrorNode (path : List α) : Option α :=
  path.getLast?

/-- `addNode`: inserts the node and initializes empty adjacency sets for it,
unless it is already present. -/
def addNode (g : DependencyGraph α) (node : α) : DependencyGraph α :=
  if node ∈ g.nodes then g
  else
    DependencyGraph.mk (g.nodes ++ [node]) (mapSet g.outgoingEdges node [])
      (mapSet g.incomingEdges node []) g.allowCircularDependencies

/-- `removeNode`: deletes the node, its adjacency entries, and scrubs it from
every remaining adjacency set of both indexes. -/
def removeNode (g : DependencyGraph α) (node : α) : DependencyGraph α :=
  DependencyGraph.mk (g.nodes.erase node)
    ((mapDelete g.outgoingEdges node).map (fun p => (p.1, p.2.erase node)))
    ((mapDelete g.incomingEdges node).map (fun p => (p.1, p.2.erase node)))
    g.allowCircularDependencies

/-- `hasNode`: membership in the node set. -/
def hasNode (g : DependencyGraph α) (node : α) : Bool :=
  decide (node ∈ g.nodes)

/-- `addDependency(from, to)`: raises `NodeNotFoundError` when either endpoint
is absent (checking `from` first), otherwise inserts `to` into
`outgoing[from]` and `from` into `incoming[to]`. -/
def addDependency (g : DependencyGraph α) (frm tgt : α) : Except (GraphError α) (DependencyGraph α) :=
  if frm ∉ g.nodes then Except.error GraphError.nodeNotFound
  else if tgt ∉ g.nodes then Except.error GraphError.nodeNotFound
  else Except.ok
    { g with
      outgoingEdges := mapUpdate g.outgoingEdges frm (fun s => jsSetAdd s tgt)
      incomingEdges := mapUpdate g.incomingEdges tgt (fun s => jsSetAdd s frm) }

/-- `removeDependency(from, to)`: removes the edge from both indexes, silently
ignoring missing nodes or a missing edge. -/
def removeDependency (g : DependencyGraph α) (frm tgt : α) : DependencyGraph α :=
  { g with
    outgoingEdges :=
      if frm ∈ g.nodes then mapUpdate g.outgoingEdges frm (fun s => s.erase tgt)
      else g.outgoingEdges
    incomingEdges :=
      if tgt ∈ g.nodes then mapUpdate g.incomingEdges tgt (fun s => s.erase frm)
      else g.incomingEdges }

/-- The public mutating operations of the graph, as reified actions for
stating reachable-state invariants. -/
inductive GraphOp (α : Type) where
  | addNode (n : α)
  | removeNode (n : α)
  | addDependency (frm tgt : α)
  | removeDependency (frm tgt : α)
  | setAllowCircularDependencies (b : Bool)

/-- Applies one public operation; a raised `NodeNotFoundError` from
`addDependency` propagates to the caller and leaves the state unchanged. -/
def applyOp (g : DependencyGraph α) : GraphOp α → DependencyGraph α
  | GraphOp.addNode n => addNode g n
  | GraphOp.removeNode n => removeNode g n
  | GraphOp.addDependency a b =>
    match addDependency g a b with
    | Except.ok g2 => g2
    | Except.error _ => g
  | GraphOp.removeDependency a b => removeDependency g a b
  | GraphOp.setAllowCircularDependencies b => { g with allowCircularDependencies := b }

/-- Applies a sequence of public operations from left to right. -/
def applyOps (ops : List (GraphOp α)) (g : DependencyGraph α) : DependencyGraph α :=
  ops.foldl applyOp g

/-- One frame of the traversal's explicit work stack (`DfsTodoItem`): the node
and whether the frame has already been expanded. -/
structure Frame (α : Type) where
  node : α
  processed : Bool
deriving DecidableEq

/-- The outcome of one traversal loop: a detected cycle (the thrown
`CircularDependencyError` path) or normal completion with the final `visited`
and `result` collections. -/
inductive DfsOut (α : Type) where
  | cycleFound (path : List α)
  | done (visited result : List α)
deriving DecidableEq

/-- The adjacency function induced by one of the two adjacency indexes. -/
def adjOf (edges : List (α × List α)) (n : α) : List α :=
  mapGetD edges n

/-- The `while (todo.length > 0)` loop of `createDFS`, with head of `todo` as
the top of the stack and an explicit fuel bound.  `none` means the fuel ran
out; the loop itself mirrors the source case by case: closing an expanded
frame; dropping an already-visited node; cycle handling for a node on the open
path; and expanding a fresh node by pushing its adjacency targets so that the
first target ends on top. -/
def dfsLoop (edges : List (α × List α)) (filterLeaves allowCirc : Bool) :
    Nat → List (Frame α) → List α → List α → List α → List α → Option (DfsOut α)
  | 0, _, _, _, _, _ => none
  | _ + 1, [], _, _, visited, result => some (DfsOut.done visited result)
  | fuel + 1, Frame.mk n true :: todo, inPath, curPath, visited, result =>
    dfsLoop edges filterLeaves allowCirc fuel todo (inPath.erase n) curPath.dropLast
      (jsSetAdd visited n)
      (if !filterLeaves || (adjOf edges n).isEmpty then jsSetAdd result n else result)
  | fuel + 1, Frame.mk n false :: todo, inPath, curPath, visited, result =>
    if n ∈ visited then
      dfsLoop edges filterLeaves allowCirc fuel todo inPath curPath visited result
    else if n ∈ inPath then
      if allowCirc then
        dfsLoop edges filterLeaves allowCirc fuel todo inPath curPath visited result
      else some (DfsOut.cycleFound (curPath ++ [n]))
    else
      dfsLoop edges filterLeaves allowCirc fuel
        ((adjOf edges n).map (fun c => Frame.mk c false) ++ Frame.mk n true :: todo)
        (jsSetAdd inPath n) (curPath ++ [n]) visited result

/-- The state a constructed traversal function closes over: the shared
`visited` set and the shared result collector. -/
structure DfsState (α : Type) where
  visited : List α
  result : List α
deriving DecidableEq

/-- One invocation of the traversal function returned by `createDFS` on a
start node: an immediate return when the start is already visited, otherwise
the stack loop starting from a single unexpanded frame. -/
def dfsRun (edges : List (α × List α)) (filterLeaves allowCirc : Bool) (fuel : Nat)
    (st : DfsState α) (start : α) : Option (Except (List α) (DfsState α)) :=
  if start ∈ st.visited then some (Except.ok st)
  else
    match dfsLoop edges filterLeaves allowCirc fuel [Frame.mk start false] [] [] st.visited st.result with
    | none => none
    | some (DfsOut.cycleFound p) => some (Except.error p)
    | some (DfsOut.done v r) => some (Except.ok (DfsState.mk v r))

/-- Invokes the same constructed traversal function on each start node in
turn, sharing the `visited` set and the result collector (the closure
pattern); a raised cycle error aborts the remaining invocations. -/
def dfsRunMany (edges : List (α × List α)) (filterLeaves allowCirc : Bool) (fuel : Nat) :
    List α → DfsState α → Option (Except (List α) (DfsState α))
  | [], st => some (Except.ok st)
  | n :: ns, st =>
    match dfsRun edges filterLeaves allowCirc fuel st n with
    | none => none
    | some (Except.error p) => some (Except.error p)
    | some (Except.ok st2) => dfsRunMany edges filterLeaves allowCirc fuel ns st2

/-- `getDependenciesOf(node, filterLeaves)`: transitive dependencies via a
fresh traversal over the outgoing index, with the queried node removed from
the result. -/
def getDependenciesOf (g : DependencyGraph α) (node : α) (filterLeaves : Bool)
    (fuel : Nat) : Option (Except (GraphError α) (List α)) :=
  if node ∈ g.nodes then
    match dfsRun g.outgoingEdges filterLeaves g.allowCircularDependencies fuel
        (DfsState.mk [] []) node with
    | none => none
    | some (Except.error p) => some (Except.error (GraphError.circular p))
    | some (Except.ok st) => some (Except.ok (st.result.erase node))
  else some (Except.error GraphError.nodeNotFound)

/-- `getDependentsOf(node, filterLeaves)`: transitive dependents via a fresh
traversal over the incoming index, with the queried node removed from the
result. -/
def getDependentsOf (g : DependencyGraph α) (node : α) (filterLeaves : Bool)
    (fuel : Nat) : Option (Except (GraphError α) (List α)) :=
  if node ∈ g.nodes then
    match dfsRun g.incomingEdges filterLeaves g.allowCircularDependencies fuel
        (DfsState.mk [] []) node with
    | none => none
    | some (Except.error p) => some (Except.error (GraphError.circular p))
    | some (Except.ok st) => some (Except.ok (st.result.erase node))
  else some (Except.error GraphError.nodeNotFound)

/-- The validation pass of `getOverallOrder`: when cycles are disallowed, the
traversal runs from every node (discarding its result) so that any cycle
anywhere in the graph is detected first. -/
def overallValidation (g : DependencyGraph α) (fuel : Nat) :
    Option (Except (List α) Unit) :=
  if !g.allowCircularDependencies then
    match dfsRunMany g.outgoingEdges false g.allowCircularDependencies fuel
        g.nodes (DfsState.mk [] []) with
    | none => none
    | some (Except.error p) => some (Except.error p)
    | some (Except.ok _) => some (Except.ok ())
  else some (Except.ok ())

/-- The starting points of the main pass: the nodes with an empty incoming
set. -/
def entryNodesOf (g : DependencyGraph α) : List α :=
  g.nodes.filter (fun n => (adjOf g.incomingEdges n).isEmpty)

/-- The main pass of `getOverallOrder`: one traversal instance run over every
entry node, sharing its `visited` set and result collector. -/
def overallMain (g : DependencyGraph α) (filterLeaves : Bool) (fuel : Nat) :
    Option (Except (List α) (DfsState α)) :=
  dfsRunMany g.outgoingEdges filterLeaves g.allowCircularDependencies fuel
    (entryNodesOf g) (DfsState.mk [] [])

/-- The completion pass of `getOverallOrder`: when cycles are allowed, the
same traversal instance is additionally run from every node still missing from
the result (subgraphs with no clear starting point). -/
def overallCompletion (g : DependencyGraph α) (filterLeaves : Bool) (fuel : Nat)
    (st1 : DfsState α) : Option (Except (List α) (DfsState α)) :=
  if g.allowCircularDependencies then
    dfsRunMany g.outgoingEdges filterLeaves g.allowCircularDependencies fuel
      (g.nodes.filter (fun n => decide (n ∉ st1.result))) st1
  else some (Except.ok st1)

/-- `getOverallOrder(filterLeaves)`: empty shortcut, validation pass over all
nodes when cycles are disallowed, main pass from the nodes of empty incoming
set, and — when cycles are allowed — a completion pass over the nodes still
missing from the result. -/
def getOverallOrder (g : DependencyGraph α) (filterLeaves : Bool) (fuel : Nat) :
    Option (Except (GraphError α) (List α)) :=
  if g.nodes.length = 0 then some (Except.ok [])
  else
    match overallValidation g fuel with
    | none => none
    | some (Except.error p) => some (Except.error (GraphError.circular p))
    | some (Except.ok _) =>
      match overallMain g filterLeaves fuel with
      | none => none
      | some (Except.error p) => some (Except.error (GraphError.circular p))
      | some (Except.ok st1) =>
        match overallCompletion g filterLeaves fuel st1 with
        | none => none
        | some (Except.error p) => some (Except.error (GraphError.circular p))
        | some (Except.ok st2) => some (Except.ok st2.result)

/-- Reachability along an adjacency function: the reflexive-transitive closure
of the edge relation. -/
inductive Reaches (adj : α → List α) : α → α → Prop
  | refl (a : α) : Reaches adj a a
  | step {a b c : α} : b ∈ adj a → Reaches adj b c → Reaches adj a c

/-- Reachability along at least one edge. -/
def ReachesPlus (adj : α → List α) (a c : α) : Prop :=
  ∃ b, b ∈ adj a ∧ Reaches adj b c

/-- Absence of directed cycles: no node reaches itself through at least one
edge. -/
def Acyclic (adj : α → List α) : Prop :=
  ∀ a, ¬ ReachesPlus adj a a

/-- The data-model invariant of a graph: duplicate-free node list, adjacency
indexes keyed exactly by the nodes in the same order, duplicate-free adjacency
sets referencing only existing nodes, and the two indexes mirror images of one
another. -/
def WellFormed (g : DependencyGraph α) : Prop :=
  g.nodes.Nodup ∧
  g.outgoingEdges.map Prod.fst = g.nodes ∧
  g.incomingEdges.map Prod.fst = g.nodes ∧
  (∀ p ∈ g.outgoingEdges, p.2.Nodup ∧ ∀ c ∈ p.2, c ∈ g.nodes) ∧
  (∀ p ∈ g.incomingEdges, p.2.Nodup ∧ ∀ c ∈ p.2, c ∈ g.nodes) ∧
  (∀ a ∈ g.nodes, ∀ b ∈ g.nodes,
    (b ∈ mapGetD g.outgoingEdges a ↔ a ∈ mapGetD g.incomingEdges b))

example :
    getOverallOrder
      (DependencyGraph.mk [0, 1, 2] [(0, [1]), (1, [2]), (2, [])]
        [(0, []), (1, [0]), (2, [1])] false) false 100
      = some (Except.ok [2, 1, 0]) := rfl

theorem mem_jsSetAdd {s : List α} {x a : α} : a ∈ jsSetAdd s x ↔ a ∈ s ∨ a = x := by
  unfold jsSetAdd
  split
  · constructor
    · exact fun h => Or.inl h
    · rintro (h | rfl) <;> assumption
  · simp

theorem self_mem_jsSetAdd {s : List α} {x : α} : x ∈ jsSetAdd s x :=
  mem_jsSetAdd.mpr (Or.inr rfl)

theorem jsSetAdd_of_not_mem {s : List α} {x : α} (h : x ∉ s) : jsSetAdd s x = s ++ [x] := by
  unfold jsSetAdd
  exact if_neg h

theorem jsSetAdd_of_mem {s : List α} {x : α} (h : x ∈ s) : jsSetAdd s x = s := by
  unfold jsSetAdd
  exact if_pos h

theorem jsSetAdd_nodup {s : List α} {x : α} (h : s.Nodup) : (jsSetAdd s x).Nodup := by
  unfold jsSetAdd
  split
  · exact h
  · simpa using List.Nodup.append h (List.nodup_singleton x) (by
      intro a ha hb
      simp at hb
      subst hb
      exact absurd ha (by assumption))

theorem subset_jsSetAdd {s : List α} {x : α} : s ⊆ jsSetAdd s x := by
  intro a ha
  exact mem_jsSetAdd.mpr (Or.inl ha)

theorem jsSetAdd_idem {s : List α} {x : α} : jsSetAdd (jsSetAdd s x) x = jsSetAdd s x :=
  jsSetAdd_of_mem self_mem_jsSetAdd

theorem find?_key_eq_none {m : List (α × List α)} {k : α} (h : k ∉ m.map Prod.fst) :
    m.find? (fun p => decide (p.1 = k)) = none := by
  apply List.find?_eq_none.mpr
  intro p hp
  simp only [decide_eq_true_eq]
  intro hc
  exact h (List.mem_map.mpr ⟨p, hp, hc⟩)

theorem mapGet_eq_none_of_not_mem_keys {m : List (α × List α)} {k : α}
    (h : k ∉ m.map Prod.fst) : mapGet m k = none := by
  simp [mapGet, find?_key_eq_none h]

theorem mapGetD_eq_nil_of_not_mem_keys {m : List (α × List α)} {k : α}
    (h : k ∉ m.map Prod.fst) : mapGetD m k = [] := by
  simp [mapGetD, mapGet_eq_none_of_not_mem_keys h]

theorem mapGet_isSome_of_mem_keys {m : List (α × List α)} {k : α}
    (h : k ∈ m.map Prod.fst) : ∃ v, mapGet m k = some v := by
  induction m with
  | nil => simp at h
  | cons p m ih =>
    by_cases hk : p.1 = k
    · refine ⟨p.2, ?_⟩
      unfold mapGet
      rw [List.find?_cons_of_pos] <;> simp [hk]
    · simp only [List.map_cons, List.mem_cons] at h
      rcases h with h | h
    
      · exact absurd h.symm hk
      · rcases ih h with ⟨v, hv⟩
        refine ⟨v, ?_⟩
        unfold mapGet at hv ⊢
        rw [List.find?_cons_of_neg]
        · exact hv
        · simpa using hk

theorem mapGet_mapUpdate_self {m : List (α × List α)} {k : α} {f : List α → List α} :
    mapGet (mapUpdate m k f) k = (mapGet m k).map f := by
  induction m with
  | nil => rfl
  | cons p m ih =>
    by_cases hk : p.1 = k
    · unfold mapGet mapUpdate
      simp only [List.map_cons, if_pos hk]
      rw [List.find?_cons_of_pos, List.find?_cons_of_pos] <;> simp [hk]
    · unfold mapGet mapUpdate at ih ⊢
      simp only [List.map_cons, if_neg hk]
      rw [List.find?_cons_of_neg, List.find?_cons_of_neg]
      · exact ih
      · simpa using hk
      · simpa using hk

theorem mapGet_mapUpdate_ne {m : List (α × List α)} {k a : α} {f : List α → List α}
    (h : a ≠ k) : mapGet (mapUpdate m k f) a = mapGet m a := by
  induction m with
  | nil => rfl
  | cons p m ih =>
    by_cases hk : p.1 = k
    · unfold mapGet mapUpdate at ih ⊢
      simp only [List.map_cons, if_pos hk]
      rw [List.find?_cons_of_neg, List.find?_cons_of_neg]
      · exact ih
      · simp only [decide_eq_true_eq]
        intro hc
        exact h (by rw [← hc, hk])
      · simp only [decide_eq_true_eq]
        intro hc
        exact h (by rw [← hc, hk])
    · unfold mapGet mapUpdate at ih ⊢
      simp only [List.map_cons, if_neg hk]
      by_cases ha : p.1 = a
      · rw [List.find?_cons_of_pos, List.find?_cons_of_pos] <;> simp [ha]
      · rw [List.find?_cons_of_neg, List.find?_cons_of_neg]
        · exact ih
        · simpa using ha
        · simpa using ha

theorem mapGetD_mapUpdate_self {m : List (α × List α)} {k : α} {f : List α → List α}
    (hk : k ∈ m.map Prod.fst) : mapGetD (mapUpdate m k f) k = f (mapGetD m k) := by
  rcases mapGet_isSome_of_mem_keys hk with ⟨v, hv⟩
  simp [mapGetD, mapGet_mapUpdate_self, hv]

theorem mapGetD_mapUpdate_ne {m : List (α × List α)} {k a : α} {f : List α → List α}
    (h : a ≠ k) : mapGetD (mapUpdate m k f) a = mapGetD m a := by
  simp [mapGetD, mapGet_mapUpdate_ne h]

theorem keys_mapUpdate {m : List (α × List α)} {k : α} {f : List α → List α} :
    (mapUpdate m k f).map Prod.fst = m.map Prod.fst := by
  induction m with
  | nil => rfl
  | cons p m ih =>
    unfold mapUpdate at ih ⊢
    simp only [List.map_cons]
    rw [ih]
    split <;> rfl

theorem mapSet_of_not_mem_keys {m : List (α × List α)} {k : α} {v : List α}
    (h : k ∉ m.map Prod.fst) : mapSet m k v = m ++ [(k, v)] := by
  simp [mapSet, find?_key_eq_none h]

theorem keys_removeNodeMaps {m : List (α × List α)} {n : α} :
    ((mapDelete m n).map (fun p => (p.1, p.2.erase n))).map Prod.fst
      = (m.map Prod.fst).filter (fun a => decide (a ≠ n)) := by
  induction m with
  | nil => rfl
  | cons p m ih =>
    unfold mapDelete at ih ⊢
    by_cases hkk : p.1 = n
    · simp only [List.filter_cons, List.map_cons]
      rw [if_neg (by simpa using hkk), if_neg (by simpa using hkk)]
      exact ih
    · simp only [List.filter_cons, List.map_cons]
      rw [if_pos (by simpa using hkk), if_pos (by simpa using hkk)]
      simp only [List.map_cons]
      rw [ih]

theorem mapGetD_removeNodeMaps_self {m : List (α × List α)} {n : α} :
    mapGetD ((mapDelete m n).map (fun p => (p.1, p.2.erase n))) n = [] := by
  apply mapGetD_eq_nil_of_not_mem_keys
  rw [keys_removeNodeMaps]
  simp

theorem mapGetD_removeNodeMaps_ne {m : List (α × List α)} {n a : α} (h : a ≠ n) :
    mapGetD ((mapDelete m n).map (fun p => (p.1, p.2.erase n))) a
      = (mapGetD m a).erase n := by
  induction m with
  | nil => simp [mapGetD, mapGet, mapDelete]
  | cons p m ih =>
    unfold mapDelete at ih ⊢
    by_cases hk : p.1 = n
    · rw [List.filter_cons_of_neg (by simpa using hk)]
      rw [ih]
      congr 1
      unfold mapGetD mapGet
      rw [List.find?_cons_of_neg]
      simp only [decide_eq_true_eq]
      intro hc
      exact h (by rw [← hc, hk])
    · rw [List.filter_cons_of_pos (by simpa using hk)]
      simp only [List.map_cons]
      by_cases ha : p.1 = a
      · unfold mapGetD mapGet
        rw [List.find?_cons_of_pos _ (by simpa using ha),
          List.find?_cons_of_pos _ (by simpa using ha)]
        rfl
      · unfold mapGetD mapGet at ih ⊢
        rw [List.find?_cons_of_neg _ (by simpa using ha),
          List.find?_cons_of_neg _ (by simpa using ha)]
        exact ih

theorem mapUpdate_idem {m : List (α × List α)} {k : α} {f : List α → List α}
    (hf : ∀ s, f (f s) = f s) : mapUpdate (mapUpdate m k f) k f = mapUpdate m k f := by
  unfold mapUpdate
  rw [List.map_map]
  apply List.map_congr_left
  intro p _
  by_cases hk : p.1 = k
  · simp [hk, hf]
  · simp [hk]

/-- C6: `addDependency(from, to)` raises `NodeNotFoundError` exactly when one
of the endpoints is missing, and a raised error leaves the graph unchanged
(the checks run before any mutation). -/
theorem c6_addDependency_error_iff (g : DependencyGraph α) (frm tgt : α) :
    ((∃ e, addDependency g frm tgt = Except.error e) ↔ (frm ∉ g.nodes ∨ tgt ∉ g.nodes)) ∧
    (∀ e, addDependency g frm tgt = Except.error e →
      e = GraphError.nodeNotFound ∧ applyOp g (GraphOp.addDependency frm tgt) = g) := by
  constructor
  · unfold addDependency
    by_cases hf : frm ∈ g.nodes
    · by_cases ht : tgt ∈ g.nodes
      · rw [if_neg (by simpa using hf), if_neg (by simpa using ht)]
        simp [hf, ht]
      · rw [if_neg (by simpa using hf), if_pos ht]
        simp [ht]
    · rw [if_pos hf]
      simp [hf]
  · intro e he
    have hnn : e = GraphError.nodeNotFound := by
      unfold addDependency at he
      split at he
      · simpa using he.symm
      · split at he
        · simpa using he.symm
        · simp at he
    refine ⟨hnn, ?_⟩
    simp [applyOp, he]

/-- C7: `addNode` is idempotent, and `addDependency` on two existing nodes is
idempotent (the second call returns the same graph unchanged). -/
theorem c7_idempotence (g g2 : DependencyGraph α) (n a b : α)
    (ha : a ∈ g.nodes) (hb : b ∈ g.nodes)
    (hadd : addDependency g a b = Except.ok g2) :
    addNode (addNode g n) n = addNode g n ∧ addDependency g2 a b = Except.ok g2 := by
  constructor
  · by_cases hn : n ∈ g.nodes
    · simp [addNode, hn]
    · simp [addNode, hn]
  · unfold addDependency at hadd
    rw [if_neg (by simpa using ha), if_neg (by simpa using hb)] at hadd
    injection hadd with hX
    subst hX
    unfold addDependency
    rw [if_neg (by simpa using ha), if_neg (by simpa using hb)]
    dsimp only
    rw [mapUpdate_idem (fun s => jsSetAdd_idem), mapUpdate_idem (fun s => jsSetAdd_idem)]

/-- Witness for C6 at a concrete input: the empty graph rejects an edge
between absent nodes and is left unchanged. -/
theorem c6_addDependency_error_iff_witness :
    (GraphError.nodeNotFound : GraphError Nat) = GraphError.nodeNotFound ∧
      applyOp (DependencyGraph.empty : DependencyGraph Nat) (GraphOp.addDependency 0 1)
        = DependencyGraph.empty :=
  (c6_addDependency_error_iff DependencyGraph.empty 0 1).2 GraphError.nodeNotFound rfl

/-- Witness for C7 at a concrete input: a two-node graph with one edge. -/
theorem c7_idempotence_witness :
    addNode (addNode (DependencyGraph.mk [0, 1] [(0, []), (1, [])] [(0, []), (1, [])] false) 2) 2
        = addNode (DependencyGraph.mk [0, 1] [(0, []), (1, [])] [(0, []), (1, [])] false) 2 ∧
      addDependency (DependencyGraph.mk [0, 1] [(0, [1]), (1, [])] [(0, []), (1, [0])] false) 0 1
        = Except.ok (DependencyGraph.mk [0, 1] [(0, [1]), (1, [])] [(0, []), (1, [0])] false) :=
  c7_idempotence (DependencyGraph.mk [0, 1] [(0, []), (1, [])] [(0, []), (1, [])] false)
    (DependencyGraph.mk [0, 1] [(0, [1]), (1, [])] [(0, []), (1, [0])] false) 2 0 1
    (by decide) (by decide) rfl

theorem mapGet_eq_some_imp {m : List (α × List α)} {k : α} {v : List α}
    (h : mapGet m k = some v) : ∃ p ∈ m, p.1 = k ∧ p.2 = v := by
  unfold mapGet at h
  rcases hf : m.find? (fun p => decide (p.1 = k)) with _ | p
  · rw [hf] at h
    exact Option.noConfusion h
  · rw [hf] at h
    refine ⟨p, List.mem_of_find?_eq_some hf, ?_, ?_⟩
    · simpa using List.find?_some hf
    · exact Option.some.inj h

theorem mapGetD_nodup {m : List (α × List α)} {k : α}
    (h : ∀ p ∈ m, p.2.Nodup) : (mapGetD m k).Nodup := by
  unfold mapGetD
  rcases hg : mapGet m k with _ | v
  · simp
  · rcases mapGet_eq_some_imp hg with ⟨p, hp, _, hv⟩
    simpa [hv] using h p hp

theorem mapGetD_forall {m : List (α × List α)} {k : α} {P : α → Prop}
    (h : ∀ p ∈ m, ∀ c ∈ p.2, P c) : ∀ c ∈ mapGetD m k, P c := by
  unfold mapGetD
  rcases hg : mapGet m k with _ | v
  · simp
  · rcases mapGet_eq_some_imp hg with ⟨p, hp, _, hv⟩
    intro c hc
    exact h p hp c (by simpa [hv] using hc)

theorem mapGet_append_left {m m2 : List (α × List α)} {k : α}
    (h : k ∈ m.map Prod.fst) : mapGet (m ++ m2) k = mapGet m k := by
  rcases mapGet_isSome_of_mem_keys h with ⟨v, hv⟩
  unfold mapGet at hv ⊢
  rw [List.find?_append]
  rcases hf : m.find? (fun p => decide (p.1 = k)) with _ | p
  · rw [hf] at hv
    simp at hv
  · simp [hf]

theorem mapGet_append_right {m m2 : List (α × List α)} {k : α}
    (h : k ∉ m.map Prod.fst) : mapGet (m ++ m2) k = mapGet m2 k := by
  unfold mapGet
  rw [List.find?_append, find?_key_eq_none h]
  simp

/-- The outgoing adjacency of any node of a well-formed graph lies inside the
node set, and only nodes have non-empty adjacency. -/
theorem wf_out_sub {g : DependencyGraph α} (h : WellFormed g) :
    ∀ x c, c ∈ mapGetD g.outgoingEdges x → x ∈ g.nodes ∧ c ∈ g.nodes := by
  obtain ⟨-, hko, -, hvo, -, -⟩ := h
  intro x c hc
  by_cases hx : x ∈ g.nodes
  · exact ⟨hx, mapGetD_forall (fun p hp c2 hc2 => (hvo p hp).2 c2 hc2) c hc⟩
  · rw [mapGetD_eq_nil_of_not_mem_keys (by rw [hko]; exact hx)] at hc
    simp at hc

/-- The incoming adjacency of any node of a well-formed graph lies inside the
node set, and only nodes have non-empty adjacency. -/
theorem wf_in_sub {g : DependencyGraph α} (h : WellFormed g) :
    ∀ x c, c ∈ mapGetD g.incomingEdges x → x ∈ g.nodes ∧ c ∈ g.nodes := by
  obtain ⟨-, -, hki, -, hvi, -⟩ := h
  intro x c hc
  by_cases hx : x ∈ g.nodes
  · exact ⟨hx, mapGetD_forall (fun p hp c2 hc2 => (hvi p hp).2 c2 hc2) c hc⟩
  · rw [mapGetD_eq_nil_of_not_mem_keys (by rw [hki]; exact hx)] at hc
    simp at hc

/-- The mirror invariant of a well-formed graph, without membership side
conditions. -/
theorem wf_mirror {g : DependencyGraph α} (h : WellFormed g) :
    ∀ a b, b ∈ mapGetD g.outgoingEdges a ↔ a ∈ mapGetD g.incomingEdges b := by
  intro a b
  constructor
  · intro hb
    obtain ⟨ha2, hb2⟩ := wf_out_sub h a b hb
    exact (h.2.2.2.2.2 a ha2 b hb2).mp hb
  · intro ha
    obtain ⟨hb2, ha2⟩ := wf_in_sub h b a ha
    exact (h.2.2.2.2.2 a ha2 b hb2).mpr ha

theorem mapGetD_append_single_self {m : List (α × List α)} {n : α} {v : List α}
    (h : n ∉ m.map Prod.fst) : mapGetD (m ++ [(n, v)]) n = v := by
  unfold mapGetD
  rw [mapGet_append_right h]
  unfold mapGet
  rw [List.find?_cons_of_pos _ (by simp)]
  rfl

theorem mapGetD_append_single_ne {m : List (α × List α)} {n x : α} {v : List α}
    (hx : x ≠ n) : mapGetD (m ++ [(n, v)]) x = mapGetD m x := by
  by_cases hk : x ∈ m.map Prod.fst
  · unfold mapGetD
    rw [mapGet_append_left hk]
  · unfold mapGetD
    rw [mapGet_append_right hk, mapGet_eq_none_of_not_mem_keys hk]
    unfold mapGet
    rw [List.find?_cons_of_neg _ (by simpa using hx.symm)]
    rfl

theorem wellFormed_addNode {g : DependencyGraph α} {n : α} (h : WellFormed g) :
    WellFormed (addNode g n) := by
  by_cases hn : n ∈ g.nodes
  · unfold addNode
    rw [if_pos hn]
    exact h
  · obtain ⟨hnd, hko, hki, hvo, hvi, hm⟩ := h
    unfold addNode
    rw [if_neg hn]
    have hout2 : mapSet g.outgoingEdges n [] = g.outgoingEdges ++ [(n, [])] :=
      mapSet_of_not_mem_keys (by rw [hko]; exact hn)
    have hinc2 : mapSet g.incomingEdges n [] = g.incomingEdges ++ [(n, [])] :=
      mapSet_of_not_mem_keys (by rw [hki]; exact hn)
    unfold WellFormed
    dsimp only
    rw [hout2, hinc2]
    refine ⟨?_, ?_, ?_, ?_, ?_, ?_⟩
    · simp [List.nodup_append, hnd, hn]
    · simp [hko]
    · simp [hki]
    · intro p hp
      rcases List.mem_append.mp hp with hp | hp
      · exact ⟨(hvo p hp).1, fun c hc => by simp [(hvo p hp).2 c hc]⟩
      · simp only [List.mem_singleton] at hp
        subst hp
        simp
    · intro p hp
      rcases List.mem_append.mp hp with hp | hp
      · exact ⟨(hvi p hp).1, fun c hc => by simp [(hvi p hp).2 c hc]⟩
      · simp only [List.mem_singleton] at hp
        subst hp
        simp
    · intro a ha b hb
      by_cases hbn : b = n
      · rw [hbn, mapGetD_append_single_self (by rw [hki]; exact hn)]
        simp only [List.not_mem_nil, iff_false]
        intro hmem
        by_cases han : a = n
        · rw [han, mapGetD_append_single_self (by rw [hko]; exact hn)] at hmem
          simp at hmem
        · rw [mapGetD_append_single_ne han] at hmem
          exact hn (mapGetD_forall (fun p hp c hc => (hvo p hp).2 c hc) n hmem)
      · by_cases han : a = n
        · rw [han, mapGetD_append_single_self (by rw [hko]; exact hn)]
          simp only [List.not_mem_nil, false_iff]
          intro hmem
          rw [mapGetD_append_single_ne hbn] at hmem
          exact hn (mapGetD_forall (fun p hp c hc => (hvi p hp).2 c hc) n hmem)
        · rw [mapGetD_append_single_ne han, mapGetD_append_single_ne hbn]
          have ha2 : a ∈ g.nodes := by
            rcases List.mem_append.mp ha with h2 | h2
            · exact h2
            · simp only [List.mem_singleton] at h2
              exact absurd h2 han
          have hb2 : b ∈ g.nodes := by
            rcases List.mem_append.mp hb with h2 | h2
            · exact h2
            · simp only [List.mem_singleton] at h2
              exact absurd h2 hbn
          exact hm a ha2 b hb2

theorem erase_eq_filter_ne {l : List α} (d : l.Nodup) (a : α) :
    l.erase a = l.filter (fun b => decide (b ≠ a)) := by
  rw [List.Nodup.erase_eq_filter d]
  apply List.filter_congr
  intro b _
  simp only [bne, decide_not]
  rfl

theorem wellFormed_removeNode {g : DependencyGraph α} {n : α} (h : WellFormed g) :
    WellFormed (removeNode g n) := by
  obtain ⟨hnd, hko, hki, hvo, hvi, hm⟩ := h
  have houtd : ∀ p ∈ g.outgoingEdges, p.2.Nodup := fun p hp => (hvo p hp).1
  have hincd : ∀ p ∈ g.incomingEdges, p.2.Nodup := fun p hp => (hvi p hp).1
  unfold removeNode WellFormed
  dsimp only
  refine ⟨hnd.erase n, ?_, ?_, ?_, ?_, ?_⟩
  · rw [keys_removeNodeMaps, hko, erase_eq_filter_ne hnd n]
  · rw [keys_removeNodeMaps, hki, erase_eq_filter_ne hnd n]
  · intro p hp
    rcases List.mem_map.mp hp with ⟨q, hq, hpq⟩
    have hq2 : q ∈ g.outgoingEdges := List.mem_of_mem_filter hq
    subst hpq
    refine ⟨(houtd q hq2).erase n, ?_⟩
    intro c hc
    have hcq : c ∈ q.2 := List.mem_of_mem_erase hc
    have hcn : c ≠ n := ((houtd q hq2).mem_erase_iff.mp hc).1
    exact hnd.mem_erase_iff.mpr ⟨hcn, (hvo q hq2).2 c hcq⟩
  · intro p hp
    rcases List.mem_map.mp hp with ⟨q, hq, hpq⟩
    have hq2 : q ∈ g.incomingEdges := List.mem_of_mem_filter hq
    subst hpq
    refine ⟨(hincd q hq2).erase n, ?_⟩
    intro c hc
    have hcq : c ∈ q.2 := List.mem_of_mem_erase hc
    have hcn : c ≠ n := ((hincd q hq2).mem_erase_iff.mp hc).1
    exact hnd.mem_erase_iff.mpr ⟨hcn, (hvi q hq2).2 c hcq⟩
  · intro a ha b hb
    obtain ⟨han, ha2⟩ := hnd.mem_erase_iff.mp ha
    obtain ⟨hbn, hb2⟩ := hnd.mem_erase_iff.mp hb
    rw [mapGetD_removeNodeMaps_ne han, mapGetD_removeNodeMaps_ne hbn]
    rw [(mapGetD_nodup houtd).mem_erase_iff, (mapGetD_nodup hincd).mem_erase_iff]
    constructor
    · intro hc
      exact ⟨han, (hm a ha2 b hb2).mp hc.2⟩
    · intro hc
      exact ⟨hbn, (hm a ha2 b hb2).mpr hc.2⟩

theorem mem_mapUpdate {m : List (α × List α)} {k : α} {f : List α → List α} {p2 : α × List α}
    (h : p2 ∈ mapUpdate m k f) : ∃ p ∈ m, p2 = if p.1 = k then (p.1, f p.2) else p := by
  unfold mapUpdate at h
  rcases List.mem_map.mp h with ⟨p, hp, hpq⟩
  exact ⟨p, hp, hpq.symm⟩

theorem wellFormed_addDependency {g g2 : DependencyGraph α} {a b : α}
    (h : WellFormed g) (hadd : addDependency g a b = Except.ok g2) : WellFormed g2 := by
  obtain ⟨hnd, hko, hki, hvo, hvi, hm⟩ := h
  by_cases ha : a ∈ g.nodes
  case neg =>
    unfold addDependency at hadd
    rw [if_pos ha] at hadd
    exact Except.noConfusion hadd
  by_cases hb : b ∈ g.nodes
  case neg =>
    unfold addDependency at hadd
    rw [if_neg (by simpa using ha), if_pos hb] at hadd
    exact Except.noConfusion hadd
  unfold addDependency at hadd
  rw [if_neg (by simpa using ha), if_neg (by simpa using hb)] at hadd
  injection hadd with hX
  rw [← hX]
  unfold WellFormed
  dsimp only
  refine ⟨hnd, ?_, ?_, ?_, ?_, ?_⟩
  · rw [keys_mapUpdate, hko]
  · rw [keys_mapUpdate, hki]
  · intro p hp
    rcases mem_mapUpdate hp with ⟨q, hq, hpq⟩
    subst hpq
    split
    · refine ⟨jsSetAdd_nodup (hvo q hq).1, ?_⟩
      intro c hc
      rcases mem_jsSetAdd.mp hc with hc | hc
      · exact (hvo q hq).2 c hc
      · exact hc ▸ hb
    · exact hvo q hq
  · intro p hp
    rcases mem_mapUpdate hp with ⟨q, hq, hpq⟩
    subst hpq
    split
    · refine ⟨jsSetAdd_nodup (hvi q hq).1, ?_⟩
      intro c hc
      rcases mem_jsSetAdd.mp hc with hc | hc
      · exact (hvi q hq).2 c hc
      · exact hc ▸ ha
    · exact hvi q hq
  · intro x hx y hy
    by_cases hxa : x = a
    · rw [hxa, mapGetD_mapUpdate_self (by rw [hko]; exact ha)]
      by_cases hyb : y = b
      · rw [hyb, mapGetD_mapUpdate_self (by rw [hki]; exact hb)]
        simp [self_mem_jsSetAdd]
      · rw [mapGetD_mapUpdate_ne hyb, mem_jsSetAdd]
        constructor
        · intro hc
          rcases hc with hc | hc
          · exact (hm a ha y hy).mp hc
          · exact absurd hc hyb
        · intro hc
          exact Or.inl ((hm a ha y hy).mpr hc)
    · rw [mapGetD_mapUpdate_ne hxa]
      by_cases hyb : y = b
      · rw [hyb, mapGetD_mapUpdate_self (by rw [hki]; exact hb), mem_jsSetAdd]
        constructor
        · intro hc
          exact Or.inl ((hm x hx b hb).mp hc)
        · intro hc
          rcases hc with hc | hc
          · exact (hm x hx b hb).mpr hc
          · exact absurd hc hxa
      · rw [mapGetD_mapUpdate_ne hyb]
        exact hm x hx y hy

theorem wellFormed_removeDependency {g : DependencyGraph α} {a b : α}
    (h : WellFormed g) : WellFormed (removeDependency g a b) := by
  obtain ⟨hnd, hko, hki, hvo, hvi, hm⟩ := h
  have houtd : ∀ p ∈ g.outgoingEdges, p.2.Nodup := fun p hp => (hvo p hp).1
  have hincd : ∀ p ∈ g.incomingEdges, p.2.Nodup := fun p hp => (hvi p hp).1
  have hOut : ∀ x y, x ∈ g.nodes →
      (y ∈ mapGetD (removeDependency g a b).outgoingEdges x ↔
        y ∈ mapGetD g.outgoingEdges x ∧ ¬(x = a ∧ y = b)) := by
    intro x y hx
    show y ∈ mapGetD (if a ∈ g.nodes then _ else _) x ↔ _
    by_cases hga : a ∈ g.nodes
    · rw [if_pos hga]
      by_cases hxa : x = a
      · rw [hxa, mapGetD_mapUpdate_self (by rw [hko]; exact hga)]
        rw [(mapGetD_nodup houtd).mem_erase_iff]
        constructor
        · intro hc
          exact ⟨hc.2, by simp [hc.1]⟩
        · intro hc
          refine ⟨?_, hc.1⟩
          intro hyb
          exact hc.2 ⟨rfl, hyb⟩
      · rw [mapGetD_mapUpdate_ne hxa]
        simp [hxa]
    · rw [if_neg hga]
      have hxa : x ≠ a := fun hc => hga (hc ▸ hx)
      simp [hxa]
  have hInc : ∀ x y, y ∈ g.nodes →
      (x ∈ mapGetD (removeDependency g a b).incomingEdges y ↔
        x ∈ mapGetD g.incomingEdges y ∧ ¬(y = b ∧ x = a)) := by
    intro x y hy
    show x ∈ mapGetD (if b ∈ g.nodes then _ else _) y ↔ _
    by_cases hgb : b ∈ g.nodes
    · rw [if_pos hgb]
      by_cases hyb : y = b
      · rw [hyb, mapGetD_mapUpdate_self (by rw [hki]; exact hgb)]
        rw [(mapGetD_nodup hincd).mem_erase_iff]
        constructor
        · intro hc
          exact ⟨hc.2, by simp [hc.1]⟩
        · intro hc
          refine ⟨?_, hc.1⟩
          intro hxa
          exact hc.2 ⟨rfl, hxa⟩
      · rw [mapGetD_mapUpdate_ne hyb]
        simp [hyb]
    · rw [if_neg hgb]
      have hyb : y ≠ b := fun hc => hgb (hc ▸ hy)
      simp [hyb]
  unfold WellFormed
  refine ⟨?_, ?_, ?_, ?_, ?_, ?_⟩
  · exact hnd
  · show List.map Prod.fst
        (if a ∈ g.nodes then mapUpdate g.outgoingEdges a (fun s => s.erase b)
          else g.outgoingEdges) = g.nodes
    split
    · rw [keys_mapUpdate, hko]
    · exact hko
  · show List.map Prod.fst
        (if b ∈ g.nodes then mapUpdate g.incomingEdges b (fun s => s.erase a)
          else g.incomingEdges) = g.nodes
    split
    · rw [keys_mapUpdate, hki]
    · exact hki
  · show ∀ p ∈ (if a ∈ g.nodes then _ else _), _
    split
    · intro p hp
      rcases mem_mapUpdate hp with ⟨q, hq, hpq⟩
      subst hpq
      split
      · refine ⟨(houtd q hq).erase b, ?_⟩
        intro c hc
        exact (hvo q hq).2 c (List.mem_of_mem_erase hc)
      · exact hvo q hq
    · exact hvo
  · show ∀ p ∈ (if b ∈ g.nodes then _ else _), _
    split
    · intro p hp
      rcases mem_mapUpdate hp with ⟨q, hq, hpq⟩
      subst hpq
      split
      · refine ⟨(hincd q hq).erase a, ?_⟩
        intro c hc
        exact (hvi q hq).2 c (List.mem_of_mem_erase hc)
      · exact hvi q hq
    · exact hvi
  · intro x hx y hy
    rw [hOut x y hx, hInc x y hy, hm x hx y hy]
    constructor
    · intro hc
      refine ⟨hc.1, ?_⟩
      intro hc2
      exact hc.2 ⟨hc2.2, hc2.1⟩
    · intro hc
      refine ⟨hc.1, ?_⟩
      intro hc2
      exact hc.2 ⟨hc2.2, hc2.1⟩

theorem wellFormed_empty : WellFormed (DependencyGraph.empty : DependencyGraph α) := by
  unfold WellFormed DependencyGraph.empty
  refine ⟨List.nodup_nil, rfl, rfl, ?_, ?_, ?_⟩ <;> simp

theorem wellFormed_applyOp {g : DependencyGraph α} (h : WellFormed g) (op : GraphOp α) :
    WellFormed (applyOp g op) := by
  cases op with
  | addNode n => exact wellFormed_addNode h
  | removeNode n => exact wellFormed_removeNode h
  | addDependency a b =>
    show WellFormed (match addDependency g a b with
      | Except.ok g2 => g2
      | Except.error _ => g)
    rcases hr : addDependency g a b with e | g2
    · exact h
    · exact wellFormed_addDependency h hr
  | removeDependency a b => exact wellFormed_removeDependency h
  | setAllowCircularDependencies b =>
    obtain ⟨hnd, hko, hki, hvo, hvi, hm⟩ := h
    exact ⟨hnd, hko, hki, hvo, hvi, hm⟩

theorem wellFormed_applyOps {g : DependencyGraph α} (ops : List (GraphOp α))
    (h : WellFormed g) : WellFormed (applyOps ops g) := by
  induction ops generalizing g with
  | nil => exact h
  | cons op ops ih => exact ih (wellFormed_applyOp h op)

/-- C5: every graph state reachable from the empty graph keeps the two
adjacency indexes as mirror images, and every node referenced by either index
is a member of the node set (no dangling references, in particular after
`removeNode`). -/
theorem c5_reachable_mirror_no_dangling (ops : List (GraphOp α)) :
    (∀ a b, b ∈ mapGetD (applyOps ops (DependencyGraph.empty : DependencyGraph α)).outgoingEdges a ↔
      a ∈ mapGetD (applyOps ops (DependencyGraph.empty : DependencyGraph α)).incomingEdges b) ∧
    (∀ a b, b ∈ mapGetD (applyOps ops (DependencyGraph.empty : DependencyGraph α)).outgoingEdges a →
      a ∈ (applyOps ops (DependencyGraph.empty : DependencyGraph α)).nodes ∧
      b ∈ (applyOps ops (DependencyGraph.empty : DependencyGraph α)).nodes) ∧
    (∀ a b, b ∈ mapGetD (applyOps ops (DependencyGraph.empty : DependencyGraph α)).incomingEdges a →
      a ∈ (applyOps ops (DependencyGraph.empty : DependencyGraph α)).nodes ∧
      b ∈ (applyOps ops (DependencyGraph.empty : DependencyGraph α)).nodes) := by
  have he : WellFormed (DependencyGraph.empty : DependencyGraph α) := wellFormed_empty
  have hwf := wellFormed_applyOps ops he
  exact ⟨wf_mirror hwf, wf_out_sub hwf, wf_in_sub hwf⟩

theorem dfsLoop_invariant (edges : List (α × List α)) (flt circ : Bool)
    (P : List (Frame α) → List α → List α → List α → List α → Prop)
    (hclose : ∀ n todo ip cp vis res, P (Frame.mk n true :: todo) ip cp vis res →
      P todo (ip.erase n) cp.dropLast (jsSetAdd vis n)
        (if !flt || (adjOf edges n).isEmpty then jsSetAdd res n else res))
    (hvis : ∀ n todo ip cp vis res, P (Frame.mk n false :: todo) ip cp vis res →
      n ∈ vis → P todo ip cp vis res)
    (hskip : ∀ n todo ip cp vis res, circ = true → P (Frame.mk n false :: todo) ip cp vis res →
      n ∉ vis → n ∈ ip → P todo ip cp vis res)
    (hexp : ∀ n todo ip cp vis res, P (Frame.mk n false :: todo) ip cp vis res →
      n ∉ vis → n ∉ ip →
      P ((adjOf edges n).map (fun c => Frame.mk c false) ++ Frame.mk n true :: todo)
        (jsSetAdd ip n) (cp ++ [n]) vis res) :
    ∀ fuel todo ip cp vis res, P todo ip cp vis res →
      ∀ v r, dfsLoop edges flt circ fuel todo ip cp vis res = some (DfsOut.done v r) →
        ∃ ip2 cp2, P [] ip2 cp2 v r := by
  intro fuel
  induction fuel with
  | zero =>
    intro todo ip cp vis res _ v r h
    exact Option.noConfusion h
  | succ fuel ih =>
    intro todo ip cp vis res hP v r hrun
    rcases todo with _ | ⟨⟨n, b⟩, todo⟩
    · simp only [dfsLoop] at hrun
      obtain ⟨h1, h2⟩ : vis = v ∧ res = r := by
        have h3 := Option.some.inj hrun
        cases h3
        exact ⟨rfl, rfl⟩
      subst h1
      subst h2
      exact ⟨ip, cp, hP⟩
    · cases b
      · simp only [dfsLoop] at hrun
        by_cases hv : n ∈ vis
        · rw [if_pos hv] at hrun
          exact ih todo ip cp vis res (hvis n todo ip cp vis res hP hv) v r hrun
        · rw [if_neg hv] at hrun
          by_cases hip : n ∈ ip
          · rw [if_pos hip] at hrun
            by_cases hc : circ = true
            · rw [if_pos hc] at hrun
              exact ih todo ip cp vis res (hskip n todo ip cp vis res hc hP hv hip) v r hrun
            · rw [if_neg hc] at hrun
              have := Option.some.inj hrun
              exact DfsOut.noConfusion this
          · rw [if_neg hip] at hrun
            exact ih _ _ _ _ _ (hexp n todo ip cp vis res hP hv hip) v r hrun
      · simp only [dfsLoop] at hrun
        exact ih _ _ _ _ _ (hclose n todo ip cp vis res hP) v r hrun

theorem dfsLoop_error (edges : List (α × List α)) (flt circ : Bool)
    (P : List (Frame α) → List α → List α → List α → List α → Prop)
    (hclose : ∀ n todo ip cp vis res, P (Frame.mk n true :: todo) ip cp vis res →
      P todo (ip.erase n) cp.dropLast (jsSetAdd vis n)
        (if !flt || (adjOf edges n).isEmpty then jsSetAdd res n else res))
    (hvis : ∀ n todo ip cp vis res, P (Frame.mk n false :: todo) ip cp vis res →
      n ∈ vis → P todo ip cp vis res)
    (hskip : ∀ n todo ip cp vis res, circ = true → P (Frame.mk n false :: todo) ip cp vis res →
      n ∉ vis → n ∈ ip → P todo ip cp vis res)
    (hexp : ∀ n todo ip cp vis res, P (Frame.mk n false :: todo) ip cp vis res →
      n ∉ vis → n ∉ ip →
      P ((adjOf edges n).map (fun c => Frame.mk c false) ++ Frame.mk n true :: todo)
        (jsSetAdd ip n) (cp ++ [n]) vis res) :
    ∀ fuel todo ip cp vis res, P todo ip cp vis res →
      ∀ p, dfsLoop edges flt circ fuel todo ip cp vis res = some (DfsOut.cycleFound p) →
        ∃ n todo2 ip2 cp2 vis2 res2, P (Frame.mk n false :: todo2) ip2 cp2 vis2 res2 ∧
          n ∉ vis2 ∧ n ∈ ip2 ∧ circ = false ∧ p = cp2 ++ [n] := by
  intro fuel
  induction fuel with
  | zero =>
    intro todo ip cp vis res _ p h
    exact Option.noConfusion h
  | succ fuel ih =>
    intro todo ip cp vis res hP p hrun
    rcases todo with _ | ⟨⟨n, b⟩, todo⟩
    · simp only [dfsLoop] at hrun
      have := Option.some.inj hrun
      exact DfsOut.noConfusion this
    · cases b
      · simp only [dfsLoop] at hrun
        by_cases hv : n ∈ vis
        · rw [if_pos hv] at hrun
          exact ih todo ip cp vis res (hvis n todo ip cp vis res hP hv) p hrun
        · rw [if_neg hv] at hrun
          by_cases hip : n ∈ ip
          · rw [if_pos hip] at hrun
            by_cases hc : circ = true
            · rw [if_pos hc] at hrun
              exact ih todo ip cp vis res (hskip n todo ip cp vis res hc hP hv hip) p hrun
            · rw [if_neg hc] at hrun
              have h2 := Option.some.inj hrun
              refine ⟨n, todo, ip, cp, vis, res, hP, hv, hip, Bool.not_eq_true circ |>.mp hc, ?_⟩
              exact (DfsOut.cycleFound.inj h2).symm
          · rw [if_neg hip] at hrun
            exact ih _ _ _ _ _ (hexp n todo ip cp vis res hP hv hip) p hrun
      · simp only [dfsLoop] at hrun
        exact ih _ _ _ _ _ (hclose n todo ip cp vis res hP) p hrun

theorem dfsLoop_mono {edges : List (α × List α)} {flt circ : Bool} :
    ∀ fuel todo ip cp vis res r,
      dfsLoop edges flt circ fuel todo ip cp vis res = some r →
      dfsLoop edges flt circ (fuel + 1) todo ip cp vis res = some r := by
  intro fuel
  induction fuel with
  | zero =>
    intro todo ip cp vis res r h
    exact Option.noConfusion h
  | succ fuel ih =>
    intro todo ip cp vis res r h
    rcases todo with _ | ⟨⟨n, b⟩, todo⟩
    · simpa only [dfsLoop] using h
    · cases b
      · simp only [dfsLoop] at h ⊢
        by_cases hv : n ∈ vis
        · rw [if_pos hv] at h ⊢
          exact ih _ _ _ _ _ _ h
        · rw [if_neg hv] at h ⊢
          by_cases hip : n ∈ ip
          · rw [if_pos hip] at h ⊢
            by_cases hc : circ = true
            · rw [if_pos hc] at h ⊢
              exact ih _ _ _ _ _ _ h
            · rw [if_neg hc] at h ⊢
              exact h
          · rw [if_neg hip] at h ⊢
            exact ih _ _ _ _ _ _ h
      · simp only [dfsLoop] at h ⊢
        exact ih _ _ _ _ _ _ h

theorem dfsLoop_mono_le {edges : List (α × List α)} {flt circ : Bool}
    {fuel fuel2 : Nat} (hle : fuel ≤ fuel2) :
    ∀ todo ip cp vis res r,
      dfsLoop edges flt circ fuel todo ip cp vis res = some r →
      dfsLoop edges flt circ fuel2 todo ip cp vis res = some r := by
  induction hle with
  | refl => exact fun _ _ _ _ _ _ h => h
  | step _ ih =>
    intro todo ip cp vis res r h
    exact dfsLoop_mono _ _ _ _ _ _ _ (ih _ _ _ _ _ _ h)

/-- The number of nodes of `U` lying neither in `visited` nor on the open
path: the dominant component of the traversal's termination measure. -/
def countFree (U vis ip : List α) : Nat :=
  (U.filter (fun a => decide (a ∉ vis ∧ a ∉ ip))).length

theorem countFree_mono {U vis ip vis2 ip2 : List α}
    (h : ∀ a, a ∉ vis2 ∧ a ∉ ip2 → a ∉ vis ∧ a ∉ ip) :
    countFree U vis2 ip2 ≤ countFree U vis ip := by
  unfold countFree
  induction U with
  | nil => exact Nat.le_refl 0
  | cons a U ih =>
    simp only [List.filter_cons]
    by_cases h2 : a ∉ vis2 ∧ a ∉ ip2
    · rw [if_pos (by simpa using h2), if_pos (by simpa using h a h2)]
      simpa using ih
    · rw [if_neg (by simpa using h2)]
      split
      · exact Nat.le_trans ih (Nat.le_succ _)
      · exact ih

theorem countFree_expand_lt {U vis ip : List α} {n : α}
    (hU : n ∈ U) (hv : n ∉ vis) (hip : n ∉ ip) :
    countFree U vis (jsSetAdd ip n) < countFree U vis ip := by
  have hmono : ∀ a, a ∉ vis ∧ a ∉ jsSetAdd ip n → a ∉ vis ∧ a ∉ ip :=
    fun a ha => ⟨ha.1, fun hc => ha.2 (subset_jsSetAdd hc)⟩
  unfold countFree
  induction U with
  | nil => simp at hU
  | cons a U ih =>
    simp only [List.filter_cons]
    by_cases han : a = n
    · subst han
      rw [if_neg (by simp [self_mem_jsSetAdd]), if_pos (by simpa using And.intro hv hip)]
      exact Nat.lt_succ_of_le (countFree_mono hmono)
    · have hU2 : n ∈ U := by
        rcases List.mem_cons.mp hU with h2 | h2
        · exact absurd h2.symm han
        · exact h2
      by_cases h2 : a ∉ vis ∧ a ∉ jsSetAdd ip n
      · rw [if_pos (by simpa using h2), if_pos (by simpa using hmono a h2)]
        simpa using ih hU2
      · rw [if_neg (by simpa using h2)]
        split
      
        · exact Nat.lt_succ_of_lt (ih hU2)
        · exact ih hU2

/-- All nodes appearing in any adjacency set of the map. -/
def allAdjNodes (m : List (α × List α)) : List α :=
  m.foldr (fun p acc => p.2 ++ acc) []

theorem mem_allAdjNodes {m : List (α × List α)} {p : α × List α} {c : α}
    (hp : p ∈ m) (hc : c ∈ p.2) : c ∈ allAdjNodes m := by
  induction m with
  | nil => simp at hp
  | cons q m ih =>
    unfold allAdjNodes at ih ⊢
    rcases List.mem_cons.mp hp with h2 | h2
    · subst h2
      simp [hc]
    · simp [ih h2]

theorem adjOf_sub_allAdjNodes {m : List (α × List α)} {x c : α}
    (h : c ∈ adjOf m x) : c ∈ allAdjNodes m := by
  unfold adjOf mapGetD at h
  rcases hg : mapGet m x with _ | v
  · rw [hg] at h
    simp at h
  · rw [hg] at h
    rcases mapGet_eq_some_imp hg with ⟨p, hp, _, hv⟩
    exact mem_allAdjNodes hp (by rw [hv]; simpa using h)

theorem dfsLoop_term (edges : List (α × List α)) (flt circ : Bool) (U : List α)
    (hadj : ∀ x c, c ∈ adjOf edges x → c ∈ U) :
    ∀ k m todo ip cp vis res, (∀ f ∈ todo, f.node ∈ U) → todo.length < m →
      countFree U vis ip < k →
      ∃ fuel r, dfsLoop edges flt circ fuel todo ip cp vis res = some r := by
  intro k
  induction k with
  | zero =>
    intro m todo ip cp vis res _ _ hcount
    exact absurd hcount (Nat.not_lt_zero _)
  | succ k ihk =>
    intro m
    induction m with
    | zero =>
      intro todo ip cp vis res _ hlen _
      exact absurd hlen (Nat.not_lt_zero _)
    | succ m ihm =>
      intro todo ip cp vis res hfU hlen hcount
      rcases todo with _ | ⟨⟨n, b⟩, todo⟩
      · exact ⟨1, DfsOut.done vis res, rfl⟩
      · have hlen2 : todo.length < m := by
          simpa using Nat.lt_of_succ_lt_succ hlen
        have htail : ∀ f ∈ todo, f.node ∈ U := fun f hf => hfU f (List.mem_cons_of_mem _ hf)
        cases b
        · by_cases hv : n ∈ vis
          · obtain ⟨fuel, r, hr⟩ := ihm todo ip cp vis res htail hlen2 hcount
            refine ⟨fuel + 1, r, ?_⟩
            simp only [dfsLoop]
            rw [if_pos hv]
            exact hr
          · by_cases hip : n ∈ ip
            · by_cases hc : circ = true
              · obtain ⟨fuel, r, hr⟩ := ihm todo ip cp vis res htail hlen2 hcount
                refine ⟨fuel + 1, r, ?_⟩
                simp only [dfsLoop]
                rw [if_neg hv, if_pos hip, if_pos hc]
                exact hr
              · refine ⟨1, DfsOut.cycleFound (cp ++ [n]), ?_⟩
                simp only [dfsLoop]
                rw [if_neg hv, if_pos hip, if_neg hc]
            · have hnU : n ∈ U := hfU ⟨n, false⟩ (List.mem_cons_self _ _)
              have hlt : countFree U vis (jsSetAdd ip n) < countFree U vis ip :=
                countFree_expand_lt hnU hv hip
              have hframes : ∀ f ∈ (adjOf edges n).map (fun c => Frame.mk c false) ++
                  Frame.mk n true :: todo, f.node ∈ U := by
                intro f hf
                rcases List.mem_append.mp hf with hf | hf
                · rcases List.mem_map.mp hf with ⟨c, hc, hfc⟩
                  rw [← hfc]
                  exact hadj n c hc
                · rcases List.mem_cons.mp hf with hf | hf
                  · rw [hf]
                    exact hnU
                  · exact htail f hf
              obtain ⟨fuel, r, hr⟩ := ihk
                (((adjOf edges n).map (fun c => Frame.mk c false) ++
                  Frame.mk n true :: todo).length + 1)
                ((adjOf edges n).map (fun c => Frame.mk c false) ++ Frame.mk n true :: todo)
                (jsSetAdd ip n) (cp ++ [n]) vis res hframes (Nat.lt_succ_self _)
                (Nat.lt_of_lt_of_le hlt (Nat.lt_succ_iff.mp hcount))
              refine ⟨fuel + 1, r, ?_⟩
              simp only [dfsLoop]
              rw [if_neg hv, if_neg hip]
              exact hr
        · have hcount2 : countFree U (jsSetAdd vis n) (ip.erase n) < k + 1 := by
            refine Nat.lt_of_le_of_lt (countFree_mono ?_) hcount
            intro a ha
            have han : a ≠ n := by
              intro hc
              exact ha.1 (hc ▸ self_mem_jsSetAdd)
            refine ⟨fun hc => ha.1 (subset_jsSetAdd hc), fun hc => ha.2 ?_⟩
            rw [List.mem_erase_of_ne han]
            exact hc
          obtain ⟨fuel, r, hr⟩ := ihm todo (ip.erase n) cp.dropLast (jsSetAdd vis n)
            (if !flt || (adjOf edges n).isEmpty then jsSetAdd res n else res)
            htail hlen2 hcount2
          refine ⟨fuel + 1, r, ?_⟩
          simp only [dfsLoop]
          exact hr

theorem dfsRun_mono {edges : List (α × List α)} {flt circ : Bool} {fuel fuel2 : Nat}
    {st : DfsState α} {start : α} {r : Except (List α) (DfsState α)}
    (hle : fuel ≤ fuel2) (h : dfsRun edges flt circ fuel st start = some r) :
    dfsRun edges flt circ fuel2 st start = some r := by
  unfold dfsRun at h ⊢
  by_cases hs : start ∈ st.visited
  · rw [if_pos hs] at h ⊢
    exact h
  · rw [if_neg hs] at h ⊢
    rcases hl : dfsLoop edges flt circ fuel [Frame.mk start false] [] [] st.visited st.result
      with _ | r2
    · rw [hl] at h
      exact Option.noConfusion h
    · rw [hl] at h
      rw [dfsLoop_mono_le hle _ _ _ _ _ _ hl]
      exact h

theorem dfsRunMany_mono {edges : List (α × List α)} {flt circ : Bool} {fuel fuel2 : Nat}
    (hle : fuel ≤ fuel2) :
    ∀ starts (st : DfsState α) r, dfsRunMany edges flt circ fuel starts st = some r →
      dfsRunMany edges flt circ fuel2 starts st = some r := by
  intro starts
  induction starts with
  | nil =>
    intro st r h
    exact h
  | cons n ns ih =>
    intro st r h
    unfold dfsRunMany at h ⊢
    rcases hr : dfsRun edges flt circ fuel st n with _ | r1
    · rw [hr] at h
      exact Option.noConfusion h
    · rw [hr] at h
      rw [dfsRun_mono hle hr]
      rcases r1 with p | st2
      · exact h
      · exact ih st2 r h

theorem dfsRun_term (edges : List (α × List α)) (flt circ : Bool) (st : DfsState α)
    (start : α) : ∃ fuel r, dfsRun edges flt circ fuel st start = some r := by
  by_cases hs : start ∈ st.visited
  · refine ⟨1, Except.ok st, ?_⟩
    unfold dfsRun
    rw [if_pos hs]
  · have hadj : ∀ x c, c ∈ adjOf edges x → c ∈ start :: allAdjNodes edges :=
      fun x c hc => List.mem_cons_of_mem _ (adjOf_sub_allAdjNodes hc)
    obtain ⟨fuel, r, hr⟩ := dfsLoop_term edges flt circ (start :: allAdjNodes edges) hadj
      (countFree (start :: allAdjNodes edges) st.visited [] + 1) 2
      [Frame.mk start false] [] [] st.visited st.result
      (by
        intro f hf
        rcases List.mem_cons.mp hf with hf | hf
        · rw [hf]
          exact List.mem_cons_self _ _
        · simp at hf)
      (by simp) (Nat.lt_succ_self _)
    rcases r with p | ⟨v, r2⟩
    · refine ⟨fuel, Except.error p, ?_⟩
      unfold dfsRun
      rw [if_neg hs, hr]
    · refine ⟨fuel, Except.ok (DfsState.mk v r2), ?_⟩
      unfold dfsRun
      rw [if_neg hs, hr]

theorem dfsRunMany_term (edges : List (α × List α)) (flt circ : Bool) :
    ∀ starts (st : DfsState α), ∃ fuel r, dfsRunMany edges flt circ fuel starts st = some r := by
  intro starts
  induction starts with
  | nil =>
    intro st
    exact ⟨1, Except.ok st, rfl⟩
  | cons n ns ih =>
    intro st
    obtain ⟨f1, r1, h1⟩ := dfsRun_term edges flt circ st n
    rcases r1 with p | st2
    · refine ⟨f1, Except.error p, ?_⟩
      unfold dfsRunMany
      rw [h1]
    · obtain ⟨f2, r2, h2⟩ := ih st2
      refine ⟨Nat.max f1 f2, r2, ?_⟩
      unfold dfsRunMany
      rw [dfsRun_mono (Nat.le_max_left f1 f2) h1]
      exact dfsRunMany_mono (Nat.le_max_right f1 f2) ns st2 r2 h2

theorem overallValidation_mono {g : DependencyGraph α} {fuel fuel2 : Nat} {r}
    (hle : fuel ≤ fuel2) (h : overallValidation g fuel = some r) :
    overallValidation g fuel2 = some r := by
  unfold overallValidation at h ⊢
  split
  case isTrue hc =>
    rw [if_pos hc] at h
    rcases hm : dfsRunMany g.outgoingEdges false g.allowCircularDependencies fuel
        g.nodes (DfsState.mk [] []) with _ | r1
    · rw [hm] at h
      exact Option.noConfusion h
    · rw [hm] at h
      rw [dfsRunMany_mono hle _ _ _ hm]
      exact h
  case isFalse hc =>
    rw [if_neg hc] at h
    exact h

theorem overallValidation_term (g : DependencyGraph α) :
    ∃ fuel r, overallValidation g fuel = some r := by
  by_cases hc : (!g.allowCircularDependencies) = true
  · obtain ⟨fuel, r1, h1⟩ := dfsRunMany_term g.outgoingEdges false
      g.allowCircularDependencies g.nodes (DfsState.mk [] [])
    rcases r1 with p | st
    · refine ⟨fuel, Except.error p, ?_⟩
      unfold overallValidation
      rw [if_pos hc, h1]
    · refine ⟨fuel, Except.ok (), ?_⟩
      unfold overallValidation
      rw [if_pos hc, h1]
  · refine ⟨1, Except.ok (), ?_⟩
    unfold overallValidation
    rw [if_neg hc]

theorem overallCompletion_mono {g : DependencyGraph α} {flt : Bool} {fuel fuel2 : Nat}
    {st1 : DfsState α} {r} (hle : fuel ≤ fuel2)
    (h : overallCompletion g flt fuel st1 = some r) :
    overallCompletion g flt fuel2 st1 = some r := by
  unfold overallCompletion at h ⊢
  split
  case isTrue hc =>
    rw [if_pos hc] at h
    exact dfsRunMany_mono hle _ _ _ h
  case isFalse hc =>
    rw [if_neg hc] at h
    exact h

theorem overallCompletion_term (g : DependencyGraph α) (flt : Bool) (st1 : DfsState α) :
    ∃ fuel r, overallCompletion g flt fuel st1 = some r := by
  by_cases hc : g.allowCircularDependencies = true
  · obtain ⟨fuel, r, h⟩ := dfsRunMany_term g.outgoingEdges flt g.allowCircularDependencies
      (g.nodes.filter (fun n => decide (n ∉ st1.result))) st1
    refine ⟨fuel, r, ?_⟩
    unfold overallCompletion
    rw [if_pos hc]
    exact h
  · refine ⟨1, Except.ok st1, ?_⟩
    unfold overallCompletion
    rw [if_neg hc]

theorem getOverallOrder_eq_empty {g : DependencyGraph α} {flt : Bool} {fuel : Nat}
    (hemp : g.nodes.length = 0) : getOverallOrder g flt fuel = some (Except.ok []) := by
  unfold getOverallOrder
  rw [if_pos hemp]

theorem getOverallOrder_eq_validation_err {g : DependencyGraph α} {flt : Bool} {fuel : Nat}
    {p : List α} (hemp : ¬ g.nodes.length = 0)
    (h1 : overallValidation g fuel = some (Except.error p)) :
    getOverallOrder g flt fuel = some (Except.error (GraphError.circular p)) := by
  unfold getOverallOrder
  rw [if_neg hemp]
  simp only [h1]

theorem getOverallOrder_eq_main_err {g : DependencyGraph α} {flt : Bool} {fuel : Nat}
    {u : Unit} {p : List α} (hemp : ¬ g.nodes.length = 0)
    (h1 : overallValidation g fuel = some (Except.ok u))
    (h2 : overallMain g flt fuel = some (Except.error p)) :
    getOverallOrder g flt fuel = some (Except.error (GraphError.circular p)) := by
  unfold getOverallOrder
  rw [if_neg hemp]
  simp only [h1, h2]

theorem getOverallOrder_eq_completion_err {g : DependencyGraph α} {flt : Bool} {fuel : Nat}
    {u : Unit} {st1 : DfsState α} {p : List α} (hemp : ¬ g.nodes.length = 0)
    (h1 : overallValidation g fuel = some (Except.ok u))
    (h2 : overallMain g flt fuel = some (Except.ok st1))
    (h3 : overallCompletion g flt fuel st1 = some (Except.error p)) :
    getOverallOrder g flt fuel = some (Except.error (GraphError.circular p)) := by
  unfold getOverallOrder
  rw [if_neg hemp]
  simp only [h1, h2, h3]

theorem getOverallOrder_eq_ok {g : DependencyGraph α} {flt : Bool} {fuel : Nat}
    {u : Unit} {st1 st2 : DfsState α} (hemp : ¬ g.nodes.length = 0)
    (h1 : overallValidation g fuel = some (Except.ok u))
    (h2 : overallMain g flt fuel = some (Except.ok st1))
    (h3 : overallCompletion g flt fuel st1 = some (Except.ok st2)) :
    getOverallOrder g flt fuel = some (Except.ok st2.result) := by
  unfold getOverallOrder
  rw [if_neg hemp]
  simp only [h1, h2, h3]

theorem overallMain_mono {g : DependencyGraph α} {flt : Bool} {fuel fuel2 : Nat} {r}
    (hle : fuel ≤ fuel2) (h : overallMain g flt fuel = some r) :
    overallMain g flt fuel2 = some r := by
  unfold overallMain at h ⊢
  exact dfsRunMany_mono hle _ _ _ h

theorem getOverallOrder_term (g : DependencyGraph α) (flt : Bool) :
    ∃ fuel r, getOverallOrder g flt fuel = some r := by
  by_cases hemp : g.nodes.length = 0
  · exact ⟨1, Except.ok [], getOverallOrder_eq_empty hemp⟩
  · obtain ⟨f1, r1, h1⟩ := overallValidation_term g
    rcases r1 with p | u
    · exact ⟨f1, Except.error (GraphError.circular p),
        getOverallOrder_eq_validation_err hemp h1⟩
    · obtain ⟨f2, r2, h2⟩ := dfsRunMany_term g.outgoingEdges flt
        g.allowCircularDependencies (entryNodesOf g) (DfsState.mk [] [])
      have h2b : overallMain g flt f2 = some r2 := h2
      rcases r2 with p | st1
      · refine ⟨Nat.max f1 f2, Except.error (GraphError.circular p), ?_⟩
        exact getOverallOrder_eq_main_err hemp
          (overallValidation_mono (Nat.le_max_left f1 f2) h1)
          (overallMain_mono (Nat.le_max_right f1 f2) h2b)
      · obtain ⟨f3, r3, h3⟩ := overallCompletion_term g flt st1
        have hle1 : f1 ≤ Nat.max f1 (Nat.max f2 f3) := Nat.le_max_left _ _
        have hle2 : f2 ≤ Nat.max f1 (Nat.max f2 f3) :=
          Nat.le_trans (Nat.le_max_left f2 f3) (Nat.le_max_right _ _)
        have hle3 : f3 ≤ Nat.max f1 (Nat.max f2 f3) :=
          Nat.le_trans (Nat.le_max_right f2 f3) (Nat.le_max_right _ _)
        rcases r3 with p | st2
        · exact ⟨Nat.max f1 (Nat.max f2 f3), Except.error (GraphError.circular p),
            getOverallOrder_eq_completion_err hemp (overallValidation_mono hle1 h1)
              (overallMain_mono hle2 h2b) (overallCompletion_mono hle3 h3)⟩
        · exact ⟨Nat.max f1 (Nat.max f2 f3), Except.ok st2.result,
            getOverallOrder_eq_ok hemp (overallValidation_mono hle1 h1)
              (overallMain_mono hle2 h2b) (overallCompletion_mono hle3 h3)⟩

theorem getDependenciesOf_term (g : DependencyGraph α) (node : α) (flt : Bool) :
    ∃ fuel r, getDependenciesOf g node flt fuel = some r := by
  by_cases hn : node ∈ g.nodes
  · obtain ⟨fuel, r, h⟩ := dfsRun_term g.outgoingEdges flt g.allowCircularDependencies
      (DfsState.mk [] []) node
    rcases r with p | st
    · refine ⟨fuel, Except.error (GraphError.circular p), ?_⟩
      unfold getDependenciesOf
      rw [if_pos hn, h]
    · refine ⟨fuel, Except.ok (st.result.erase node), ?_⟩
      unfold getDependenciesOf
      rw [if_pos hn, h]
  · refine ⟨1, Except.error GraphError.nodeNotFound, ?_⟩
    unfold getDependenciesOf
    rw [if_neg hn]

theorem getDependentsOf_term (g : DependencyGraph α) (node : α) (flt : Bool) :
    ∃ fuel r, getDependentsOf g node flt fuel = some r := by
  by_cases hn : node ∈ g.nodes
  · obtain ⟨fuel, r, h⟩ := dfsRun_term g.incomingEdges flt g.allowCircularDependencies
      (DfsState.mk [] []) node
    rcases r with p | st
    · refine ⟨fuel, Except.error (GraphError.circular p), ?_⟩
      unfold getDependentsOf
      rw [if_pos hn, h]
    · refine ⟨fuel, Except.ok (st.result.erase node), ?_⟩
      unfold getDependentsOf
      rw [if_pos hn, h]
  · refine ⟨1, Except.error GraphError.nodeNotFound, ?_⟩
    unfold getDependentsOf
    rw [if_neg hn]

/-- C9: the iterative depth-first traversal always terminates (some fuel
suffices — the explicit-stack loop reaches a verdict, either completing or
reporting a cycle), and hence every traversal-based operation terminates. -/
theorem c9_traversal_terminates :
    (∀ (edges : List (α × List α)) (flt circ : Bool) (st : DfsState α) (start : α),
      ∃ fuel r, dfsRun edges flt circ fuel st start = some r) ∧
    (∀ (g : DependencyGraph α) (node : α) (flt : Bool),
      ∃ fuel r, getDependenciesOf g node flt fuel = some r) ∧
    (∀ (g : DependencyGraph α) (node : α) (flt : Bool),
      ∃ fuel r, getDependentsOf g node flt fuel = some r) ∧
    (∀ (g : DependencyGraph α) (flt : Bool),
      ∃ fuel r, getOverallOrder g flt fuel = some r) :=
  ⟨dfsRun_term, getDependenciesOf_term, getDependentsOf_term, getOverallOrder_term⟩

theorem dfsLoop_result_nodup {edges : List (α × List α)} {flt circ : Bool} {fuel : Nat}
    {todo : List (Frame α)} {ip cp vis res v r : List α}
    (hres : res.Nodup)
    (hrun : dfsLoop edges flt circ fuel todo ip cp vis res = some (DfsOut.done v r)) :
    r.Nodup := by
  obtain ⟨ip2, cp2, h⟩ := dfsLoop_invariant edges flt circ
    (fun _ _ _ _ res => res.Nodup)
    (fun n todo ip cp vis res hP => by
      split
      · exact jsSetAdd_nodup hP
      · exact hP)
    (fun _ _ _ _ _ _ hP _ => hP)
    (fun _ _ _ _ _ _ _ hP _ _ => hP)
    (fun _ _ _ _ _ _ hP _ _ => hP)
    fuel todo ip cp vis res hres v r hrun
  exact h

theorem dfsRun_result_nodup {edges : List (α × List α)} {flt circ : Bool} {fuel : Nat}
    {st st2 : DfsState α} {start : α} (hres : st.result.Nodup)
    (hrun : dfsRun edges flt circ fuel st start = some (Except.ok st2)) :
    st2.result.Nodup := by
  unfold dfsRun at hrun
  by_cases hs : start ∈ st.visited
  · rw [if_pos hs] at hrun
    have h2 := Except.ok.inj (Option.some.inj hrun)
    rw [← h2]
    exact hres
  · rw [if_neg hs] at hrun
    rcases hl : dfsLoop edges flt circ fuel [Frame.mk start false] [] [] st.visited st.result
      with _ | r2
    · rw [hl] at hrun
      exact Option.noConfusion hrun
    · rw [hl] at hrun
      rcases r2 with p | ⟨v, r⟩
      · exact Except.noConfusion (Option.some.inj hrun)
      · have h2 := Except.ok.inj (Option.some.inj hrun)
        rw [← h2]
        exact dfsLoop_result_nodup hres hl

theorem getDependenciesOf_ok {g : DependencyGraph α} {node : α} {flt : Bool} {fuel : Nat}
    {l : List α} (h : getDependenciesOf g node flt fuel = some (Except.ok l)) :
    node ∈ g.nodes ∧ ∃ st, dfsRun g.outgoingEdges flt g.allowCircularDependencies fuel
      (DfsState.mk [] []) node = some (Except.ok st) ∧ l = st.result.erase node := by
  unfold getDependenciesOf at h
  by_cases hn : node ∈ g.nodes
  · rw [if_pos hn] at h
    rcases hr : dfsRun g.outgoingEdges flt g.allowCircularDependencies fuel
        (DfsState.mk [] []) node with _ | r
    · rw [hr] at h
      exact Option.noConfusion h
    · rw [hr] at h
      rcases r with p | st
      · exact Except.noConfusion (Option.some.inj h)
      · refine ⟨hn, st, rfl, ?_⟩
        exact (Except.ok.inj (Option.some.inj h)).symm
  · rw [if_neg hn] at h
    exact Except.noConfusion (Option.some.inj h)

theorem getDependentsOf_ok {g : DependencyGraph α} {node : α} {flt : Bool} {fuel : Nat}
    {l : List α} (h : getDependentsOf g node flt fuel = some (Except.ok l)) :
    node ∈ g.nodes ∧ ∃ st, dfsRun g.incomingEdges flt g.allowCircularDependencies fuel
      (DfsState.mk [] []) node = some (Except.ok st) ∧ l = st.result.erase node := by
  unfold getDependentsOf at h
  by_cases hn : node ∈ g.nodes
  · rw [if_pos hn] at h
    rcases hr : dfsRun g.incomingEdges flt g.allowCircularDependencies fuel
        (DfsState.mk [] []) node with _ | r
    · rw [hr] at h
      exact Option.noConfusion h
    · rw [hr] at h
      rcases r with p | st
      · exact Except.noConfusion (Option.some.inj h)
      · refine ⟨hn, st, rfl, ?_⟩
        exact (Except.ok.inj (Option.some.inj h)).symm
  · rw [if_neg hn] at h
    exact Except.noConfusion (Option.some.inj h)

theorem getDependenciesOf_not_self {g : DependencyGraph α} {node : α} {flt : Bool}
    {fuel : Nat} {l : List α} (h : getDependenciesOf g node flt fuel = some (Except.ok l)) :
    node ∉ l := by
  obtain ⟨-, st, hr, hl⟩ := getDependenciesOf_ok h
  rw [hl]
  exact (dfsRun_result_nodup List.nodup_nil hr).not_mem_erase

theorem getDependentsOf_not_self {g : DependencyGraph α} {node : α} {flt : Bool}
    {fuel : Nat} {l : List α} (h : getDependentsOf g node flt fuel = some (Except.ok l)) :
    node ∉ l := by
  obtain ⟨-, st, hr, hl⟩ := getDependentsOf_ok h
  rw [hl]
  exact (dfsRun_result_nodup List.nodup_nil hr).not_mem_erase

/-- C4: for a node of the graph, whenever `getDependenciesOf` or
`getDependentsOf` returns a result, the queried node itself is not in it. -/
theorem c4_queries_exclude_self (g : DependencyGraph α) (node : α) (flt : Bool)
    (fuel : Nat) (_hn : node ∈ g.nodes) :
    (∀ l, getDependenciesOf g node flt fuel = some (Except.ok l) → node ∉ l) ∧
    (∀ l, getDependentsOf g node flt fuel = some (Except.ok l) → node ∉ l) :=
  ⟨fun _ h => getDependenciesOf_not_self h, fun _ h => getDependentsOf_not_self h⟩

/-- The running example graph: nodes `a = 0`, `b = 1`, `c = 2` with edges
`a → b` and `b → c`. -/
def gDemo : DependencyGraph Nat :=
  DependencyGraph.mk [0, 1, 2] [(0, [1]), (1, [2]), (2, [])]
    [(0, []), (1, [0]), (2, [1])] false

/-- Witness for C4 at a concrete input. -/
theorem c4_queries_exclude_self_witness : (0 : Nat) ∉ [2, 1] :=
  (c4_queries_exclude_self gDemo 0 false 100 (by decide)).1 [2, 1] rfl

/-- The shape of the traversal's work stack: a tower of segments, each an
expanded frame `⟨p, true⟩` preceded (stack-above) by the still-pending
unexpanded children of `p`, over a base that is empty or the initial start
frame.  `path` lists the expanded nodes bottom-to-top, i.e. in `currentPath`
order.  Every adjacency target of an expanded node is either fully visited,
on the open path, or still pending directly above its segment. -/
inductive Stacked (adj : α → List α) (start : α) (vis ip : List α) :
    List (Frame α) → List α → Prop
  | base (pend : List (Frame α)) :
      (pend = [] ∨ pend = [Frame.mk start false]) → Stacked adj start vis ip pend []
  | seg {rest : List (Frame α)} {path : List α} (p : α) (pend : List (Frame α)) :
      Stacked adj start vis ip rest path →
      (∀ f ∈ pend, f.processed = false ∧ f.node ∈ adj p) →
      (∀ c ∈ adj p, c ∈ vis ∨ c ∈ ip ∨ ∃ f ∈ pend, f.node = c) →
      Stacked adj start vis ip (pend ++ Frame.mk p true :: rest) (path ++ [p])

theorem Stacked.mono {adj : α → List α} {start : α} {vis ip vis2 ip2 : List α}
    {todo : List (Frame α)} {cp : List α}
    (h : Stacked adj start vis ip todo cp)
    (hmono : ∀ c, c ∈ vis ∨ c ∈ ip → c ∈ vis2 ∨ c ∈ ip2) :
    Stacked adj start vis2 ip2 todo cp := by
  induction h with
  | base pend hp => exact Stacked.base pend hp
  | seg p pend hrest hpend hwit ih =>
    refine Stacked.seg p pend ih hpend ?_
    intro c hc
    rcases hwit c hc with h2 | h2 | h2
    · rcases hmono c (Or.inl h2) with h3 | h3
      · exact Or.inl h3
      · exact Or.inr (Or.inl h3)
    · rcases hmono c (Or.inr h2) with h3 | h3
      · exact Or.inl h3
      · exact Or.inr (Or.inl h3)
    · exact Or.inr (Or.inr h2)

/-- The master invariant of one invocation of the traversal loop: the stack
shape, the open-path bookkeeping (`inCurrentPath` equals `currentPath`, which
is duplicate-free, disjoint from `visited`, chained along the adjacency
function and anchored at the start node), plus duplicate-freeness of
`visited`. -/
structure LoopInv (edges : List (α × List α)) (start : α) (todo : List (Frame α))
    (ip cp vis : List α) : Prop where
  stacked : Stacked (adjOf edges) start vis ip todo cp
  ipEq : ip = cp
  nodupCp : cp.Nodup
  nodupVis : vis.Nodup
  disj : ∀ a ∈ cp, a ∉ vis
  chain : cp.Chain' (fun a b => b ∈ adjOf edges a)
  headStart : ∀ a l, cp = a :: l → a = start

theorem loopInv_init (edges : List (α × List α)) (start : α) {vis : List α}
    (hvis : vis.Nodup) : LoopInv edges start [Frame.mk start false] [] [] vis := by
  refine ⟨Stacked.base _ (Or.inr rfl), rfl, List.nodup_nil, hvis, ?_, List.chain'_nil, ?_⟩
  · intro a ha
    simp at ha
  · intro a l h
    exact List.noConfusion h

theorem seg_head_cases {pend : List (Frame α)} {x y : Frame α} {rest T : List (Frame α)}
    (h : pend ++ x :: rest = y :: T) :
    (pend = [] ∧ x = y ∧ rest = T) ∨
      ∃ pend2, pend = y :: pend2 ∧ T = pend2 ++ x :: rest := by
  cases pend with
  | nil =>
    simp only [List.nil_append, List.cons.injEq] at h
    exact Or.inl ⟨rfl, h.1, h.2⟩
  | cons f pend2 =>
    simp only [List.cons_append, List.cons.injEq] at h
    exact Or.inr ⟨pend2, by rw [h.1], h.2.symm⟩

theorem erase_concat_self {l : List α} {n : α} (h : n ∉ l) : (l ++ [n]).erase n = l := by
  rw [List.erase_append_right _ h, List.erase_cons_head]
  simp

theorem stacked_inv_false {adj : α → List α} {start : α} {vis ip : List α} {n : α}
    {T : List (Frame α)} {cp : List α}
    (h : Stacked adj start vis ip (Frame.mk n false :: T) cp) :
    (cp = [] ∧ n = start ∧ T = []) ∨
    ∃ p pend2 rest path, cp = path ++ [p] ∧ T = pend2 ++ Frame.mk p true :: rest ∧
      Stacked adj start vis ip rest path ∧
      (∀ f ∈ Frame.mk n false :: pend2, f.processed = false ∧ f.node ∈ adj p) ∧
      (∀ c ∈ adj p, c ∈ vis ∨ c ∈ ip ∨ ∃ f ∈ Frame.mk n false :: pend2, f.node = c) := by
  generalize hE : (Frame.mk n false :: T : List (Frame α)) = E at h
  cases h with
  | base pend hp =>
    rcases hp with hp | hp
    · rw [hp] at hE
      exact List.noConfusion hE
    · rw [hp] at hE
      have h1 : Frame.mk n false = Frame.mk start false ∧ T = [] := by
        have := List.cons.inj hE
        exact ⟨this.1, this.2⟩
      exact Or.inl ⟨rfl, (Frame.mk.inj h1.1).1, h1.2⟩
  | seg p pend hrest hpend hwit =>
    rcases seg_head_cases hE.symm with ⟨hp1, hp2, hp3⟩ | ⟨pend2, hp1, hp2⟩
    · exact absurd (congrArg Frame.processed hp2) (by simp)
    · refine Or.inr ⟨p, pend2, _, _, rfl, hp2, hrest, ?_, ?_⟩
      · rw [← hp1]
        exact hpend
      · intro c hc
        rcases hwit c hc with h2 | h2 | h2
        · exact Or.inl h2
        · exact Or.inr (Or.inl h2)
        · rw [← hp1]
          exact Or.inr (Or.inr h2)

theorem stacked_inv_true {adj : α → List α} {start : α} {vis ip : List α} {n : α}
    {T : List (Frame α)} {cp : List α}
    (h : Stacked adj start vis ip (Frame.mk n true :: T) cp) :
    ∃ path, cp = path ++ [n] ∧ Stacked adj start vis ip T path ∧
      (∀ c ∈ adj n, c ∈ vis ∨ c ∈ ip) := by
  generalize hE : (Frame.mk n true :: T : List (Frame α)) = E at h
  cases h with
  | base pend hp =>
    rcases hp with hp | hp
    · rw [hp] at hE
      exact List.noConfusion hE
    · rw [hp] at hE
      have h1 := (List.cons.inj hE).1
      exact absurd (congrArg Frame.processed h1) (by simp)
  | seg p pend hrest hpend hwit =>
    rcases seg_head_cases hE.symm with ⟨hp1, hp2, hp3⟩ | ⟨pend2, hp1, hp2⟩
    · have hpn : p = n := (Frame.mk.inj hp2).1
      subst hpn
      refine ⟨_, rfl, by rw [← hp3]; exact hrest, ?_⟩
      intro c hc
      rcases hwit c hc with h2 | h2 | h2
      · exact Or.inl h2
      · exact Or.inr h2
      · rw [hp1] at h2
        simp at h2
    · have := hpend (Frame.mk n true) (by rw [hp1]; exact List.mem_cons_self _ _)
      exact absurd this.1 (by simp)

theorem nodup_append_singleton {l : List α} {n : α} (h : l.Nodup) (hn : n ∉ l) :
    (l ++ [n]).Nodup := by
  refine List.Nodup.append h (List.nodup_singleton n) ?_
  intro a ha hb
  simp only [List.mem_singleton] at hb
  subst hb
  exact hn ha

theorem loopInv_vis {edges : List (α × List α)} {start n : α} {T : List (Frame α)}
    {ip cp vis : List α} (h : LoopInv edges start (Frame.mk n false :: T) ip cp vis)
    (hv : n ∈ vis) : LoopInv edges start T ip cp vis := by
  obtain ⟨hst, hipEq, hnodupCp, hnodupVis, hdisj, hchain, hhead⟩ := h
  rcases stacked_inv_false hst with ⟨hcp, hns, hT⟩ | ⟨p, pend2, rest, path, hcp, hT, hrest, hpend, hwit⟩
  · subst hT
    subst hcp
    exact ⟨Stacked.base [] (Or.inl rfl), hipEq, hnodupCp, hnodupVis, hdisj, hchain, hhead⟩
  · subst hT
    subst hcp
    refine ⟨Stacked.seg p pend2 hrest ?_ ?_, hipEq, hnodupCp, hnodupVis, hdisj, hchain, hhead⟩
    · intro f hf
      exact hpend f (List.mem_cons_of_mem _ hf)
    · intro c hc
      rcases hwit c hc with h2 | h2 | ⟨f, hf, hfc⟩
      · exact Or.inl h2
      · exact Or.inr (Or.inl h2)
      · rcases List.mem_cons.mp hf with hf | hf
        · rw [hf] at hfc
          exact Or.inl (by simpa [← hfc] using hv)
        · exact Or.inr (Or.inr ⟨f, hf, hfc⟩)

theorem loopInv_skip {edges : List (α × List α)} {start n : α} {T : List (Frame α)}
    {ip cp vis : List α} (h : LoopInv edges start (Frame.mk n false :: T) ip cp vis)
    (hip : n ∈ ip) : LoopInv edges start T ip cp vis := by
  obtain ⟨hst, hipEq, hnodupCp, hnodupVis, hdisj, hchain, hhead⟩ := h
  rcases stacked_inv_false hst with ⟨hcp, hns, hT⟩ | ⟨p, pend2, rest, path, hcp, hT, hrest, hpend, hwit⟩
  · subst hT
    subst hcp
    exact ⟨Stacked.base [] (Or.inl rfl), hipEq, hnodupCp, hnodupVis, hdisj, hchain, hhead⟩
  · subst hT
    subst hcp
    refine ⟨Stacked.seg p pend2 hrest ?_ ?_, hipEq, hnodupCp, hnodupVis, hdisj, hchain, hhead⟩
    · intro f hf
      exact hpend f (List.mem_cons_of_mem _ hf)
    · intro c hc
      rcases hwit c hc with h2 | h2 | ⟨f, hf, hfc⟩
      · exact Or.inl h2
      · exact Or.inr (Or.inl h2)
      · rcases List.mem_cons.mp hf with hf | hf
        · rw [hf] at hfc
          exact Or.inr (Or.inl (by simpa [← hfc] using hip))
        · exact Or.inr (Or.inr ⟨f, hf, hfc⟩)

theorem loopInv_close {edges : List (α × List α)} {start n : α} {T : List (Frame α)}
    {ip cp vis : List α} (h : LoopInv edges start (Frame.mk n true :: T) ip cp vis) :
    LoopInv edges start T (ip.erase n) cp.dropLast (jsSetAdd vis n) := by
  obtain ⟨hst, hipEq, hnodupCp, hnodupVis, hdisj, hchain, hhead⟩ := h
  rcases stacked_inv_true hst with ⟨path, hcp, hrest, hclose⟩
  subst hcp
  have hnpath : n ∉ path := by
    intro hc
    have := List.nodup_append.mp hnodupCp
    exact this.2.2 hc (List.mem_singleton_self n)
  have hnvis : n ∉ vis := hdisj n (by simp)
  have hipe : ip.erase n = path := by
    rw [hipEq]
    exact erase_concat_self hnpath
  have hvisAdd : jsSetAdd vis n = vis ++ [n] := jsSetAdd_of_not_mem hnvis
  rw [List.dropLast_concat, hipe, hvisAdd]
  refine ⟨?_, rfl, hnodupCp.of_append_left, ?_, ?_, ?_, ?_⟩
  · refine hrest.mono ?_
    intro c hc
    rcases hc with hc | hc
    · exact Or.inl (List.mem_append.mpr (Or.inl hc))
    · rw [hipEq] at hc
      rcases List.mem_append.mp hc with hc | hc
      · exact Or.inr hc
      · simp only [List.mem_singleton] at hc
        exact Or.inl (by simp [hc])
  · simp only [List.nodup_append]
    refine ⟨hnodupVis, List.nodup_singleton n, ?_⟩
    intro a ha hb
    simp only [List.mem_singleton] at hb
    subst hb
    exact hnvis ha
  · intro a ha
    have ha2 : a ∈ path ++ [n] := List.mem_append.mpr (Or.inl ha)
    have hane : a ≠ n := fun hc => hnpath (hc ▸ ha)
    intro hc
    rcases List.mem_append.mp hc with hc | hc
    · exact hdisj a ha2 hc
    · simp only [List.mem_singleton] at hc
      exact hane hc
  · exact ((List.chain'_append).mp hchain).1
  · intro a l hl
    exact hhead a (l ++ [n]) (by rw [hl]; rfl)

theorem loopInv_exp {edges : List (α × List α)} {start n : α} {T : List (Frame α)}
    {ip cp vis : List α} (h : LoopInv edges start (Frame.mk n false :: T) ip cp vis)
    (hv : n ∉ vis) (hip : n ∉ ip) :
    LoopInv edges start
      ((adjOf edges n).map (fun c => Frame.mk c false) ++ Frame.mk n true :: T)
      (jsSetAdd ip n) (cp ++ [n]) vis := by
  obtain ⟨hst, hipEq, hnodupCp, hnodupVis, hdisj, hchain, hhead⟩ := h
  have hipAdd : jsSetAdd ip n = ip ++ [n] := jsSetAdd_of_not_mem hip
  have hncp : n ∉ cp := by
    rw [← hipEq]
    exact hip
  have hpendNew : ∀ f ∈ (adjOf edges n).map (fun c => Frame.mk c false),
      f.processed = false ∧ f.node ∈ adjOf edges n := by
    intro f hf
    rcases List.mem_map.mp hf with ⟨c, hc, hfc⟩
    rw [← hfc]
    exact ⟨rfl, hc⟩
  have hwitNew : ∀ c ∈ adjOf edges n, c ∈ vis ∨ c ∈ jsSetAdd ip n ∨
      ∃ f ∈ (adjOf edges n).map (fun c => Frame.mk c false), f.node = c := by
    intro c hc
    exact Or.inr (Or.inr ⟨Frame.mk c false, List.mem_map.mpr ⟨c, hc, rfl⟩, rfl⟩)
  rcases stacked_inv_false hst with ⟨hcp, hns, hT⟩ | ⟨p, pend2, rest, path, hcp, hT, hrest, hpend, hwit⟩
  · subst hT
    subst hcp
    subst hns
    refine ⟨?_, ?_, ?_, hnodupVis, ?_, ?_, ?_⟩
    · have hbase : Stacked (adjOf edges) n vis (jsSetAdd ip n) [] [] :=
        Stacked.base [] (Or.inl rfl)
      have h2 : Stacked (adjOf edges) n vis (jsSetAdd ip n)
          (((adjOf edges n).map (fun c => Frame.mk c false)) ++
            Frame.mk n true :: ([] : List (Frame α))) ([] ++ [n]) :=
        Stacked.seg n ((adjOf edges n).map (fun c => Frame.mk c false))
          hbase hpendNew hwitNew
      simpa using h2
    · rw [hipAdd, hipEq]
    · simp
    · intro a ha
      simp only [List.nil_append, List.mem_singleton] at ha
      rw [ha]
      exact hv
    · simp [List.chain'_singleton]
    · intro a l hl
      simp only [List.nil_append, List.cons.injEq] at hl
      exact hl.1.symm
  · subst hT
    subst hcp
    have hnadj : n ∈ adjOf edges p := (hpend (Frame.mk n false) (List.mem_cons_self _ _)).2
    refine ⟨?_, ?_, ?_, hnodupVis, ?_, ?_, ?_⟩
    · have hrest2 : Stacked (adjOf edges) start vis (jsSetAdd ip n) rest path := by
        refine hrest.mono ?_
        intro c hc
        rcases hc with hc | hc
        · exact Or.inl hc
        · exact Or.inr (subset_jsSetAdd hc)
      have hseg1 : Stacked (adjOf edges) start vis (jsSetAdd ip n)
          (pend2 ++ Frame.mk p true :: rest) (path ++ [p]) := by
        refine Stacked.seg p pend2 hrest2 ?_ ?_
        · intro f hf
          exact hpend f (List.mem_cons_of_mem _ hf)
        · intro c hc
          rcases hwit c hc with h2 | h2 | ⟨f, hf, hfc⟩
          · exact Or.inl h2
          · exact Or.inr (Or.inl (subset_jsSetAdd h2))
          · rcases List.mem_cons.mp hf with hf | hf
            · rw [hf] at hfc
              refine Or.inr (Or.inl ?_)
              rw [← hfc]
              exact self_mem_jsSetAdd
            · exact Or.inr (Or.inr ⟨f, hf, hfc⟩)
      have h2 : Stacked (adjOf edges) start vis (jsSetAdd ip n)
          (((adjOf edges n).map (fun c => Frame.mk c false)) ++
            Frame.mk n true :: (pend2 ++ Frame.mk p true :: rest)) ((path ++ [p]) ++ [n]) :=
        Stacked.seg n ((adjOf edges n).map (fun c => Frame.mk c false))
          hseg1 hpendNew hwitNew
      simpa using h2
    · rw [hipAdd, hipEq]
    · exact nodup_append_singleton hnodupCp hncp
    · intro a ha
      rcases List.mem_append.mp ha with ha | ha
      · exact hdisj a ha
      · simp only [List.mem_singleton] at ha
        rw [ha]
        exact hv
    · rw [List.chain'_append]
      refine ⟨hchain, List.chain'_singleton n, ?_⟩
      intro x hx y hy
      simp only [List.head?_cons, Option.mem_def, Option.some.injEq] at hy
      subst hy
      rw [List.getLast?_concat] at hx
      simp only [Option.mem_def, Option.some.injEq] at hx
      subst hx
      exact hnadj
    · intro a l hl
      cases hq : path ++ [p] with
      | nil => simp at hq
      | cons b m =>
        rw [hq] at hl
        simp only [List.cons_append, List.cons.injEq] at hl
        rw [← hl.1]
        exact hhead b m hq

theorem Reaches.trans {adj : α → List α} {a b c : α}
    (h1 : Reaches adj a b) (h2 : Reaches adj b c) : Reaches adj a c := by
  induction h1 with
  | refl => exact h2
  | step he _ ih => exact Reaches.step he (ih h2)

theorem Reaches.snoc {adj : α → List α} {a b c : α}
    (h : Reaches adj a b) (he : c ∈ adj b) : Reaches adj a c :=
  h.trans (Reaches.step he (Reaches.refl c))

theorem reachesPlus_of_reaches_edge {adj : α → List α} {c p : α}
    (h : Reaches adj c p) (he : c ∈ adj p) : ReachesPlus adj c c := by
  cases h with
  | refl => exact ⟨c, he, Reaches.refl c⟩
  | step hb hr => exact ⟨_, hb, hr.snoc he⟩

theorem chain_last_reaches {adj : α → List α} {l : List α} {z : α}
    (hchain : List.Chain' (fun a b => b ∈ adj a) l) (hz : l.getLast? = some z) :
    ∀ c ∈ l, Reaches adj c z := by
  induction l with
  | nil =>
    intro c hc
    simp at hc
  | cons a l ih =>
    intro c hc
    rcases List.mem_cons.mp hc with hc | hc
    · subst hc
      cases l with
      | nil =>
        simp only [List.getLast?_singleton, Option.some.injEq] at hz
        subst hz
        exact Reaches.refl c
      | cons b l2 =>
        have hab : b ∈ adj c := (List.chain'_cons.mp hchain).1
        have hz2 : (b :: l2).getLast? = some z := by
          rw [← hz]
          simp [List.getLast?_cons_cons]
        exact Reaches.step hab (ih (List.chain'_cons.mp hchain).2 hz2 b
          (List.mem_cons_self _ _))
    · cases l with
      | nil => simp at hc
      | cons b l2 =>
        have hz2 : (b :: l2).getLast? = some z := by
          rw [← hz]
          simp [List.getLast?_cons_cons]
        exact ih (List.chain'_cons.mp hchain).2 hz2 c hc

theorem stacked_nil_inv {adj : α → List α} {start : α} {vis ip cp : List α}
    (h : Stacked adj start vis ip ([] : List (Frame α)) cp) : cp = [] := by
  generalize hE : ([] : List (Frame α)) = E at h
  cases h with
  | base pend hp => rfl
  | seg p pend hrest hpend hwit =>
    exact absurd hE.symm (by simp)

theorem loopInv_true_shape {edges : List (α × List α)} {start n : α} {T : List (Frame α)}
    {ip cp vis : List α} (h : LoopInv edges start (Frame.mk n true :: T) ip cp vis) :
    n ∈ cp ∧ n ∉ vis ∧ (∀ c ∈ adjOf edges n, c ∈ vis ∨ c ∈ ip) := by
  rcases stacked_inv_true h.stacked with ⟨path, hcp, -, hclose⟩
  have hn : n ∈ cp := by
    rw [hcp]
    simp
  exact ⟨hn, h.disj n hn, hclose⟩

theorem loopInv_close_adj_sub {edges : List (α × List α)} {start n : α}
    {T : List (Frame α)} {ip cp vis : List α}
    (h : LoopInv edges start (Frame.mk n true :: T) ip cp vis)
    (hacy : Acyclic (adjOf edges)) :
    ∀ c ∈ adjOf edges n, c ∈ vis := by
  obtain ⟨hst, hipEq, hnodupCp, -, -, hchain, -⟩ := h
  rcases stacked_inv_true hst with ⟨path, hcp, -, hclose⟩
  intro c hc
  rcases hclose c hc with h2 | h2
  · exact h2
  · exfalso
    rw [hipEq, hcp] at h2
    have hchain2 : List.Chain' (fun a b => b ∈ adjOf edges a) (path ++ [n]) := by
      rw [← hcp]
      exact hchain
    have hreach : Reaches (adjOf edges) c n :=
      chain_last_reaches hchain2 (List.getLast?_concat path) c h2
    exact hacy c (reachesPlus_of_reaches_edge hreach hc)

/-- The order invariant maintained on the `visited` list: every adjacency
target of an entry appears strictly before it. -/
def SortedAdj (adj : α → List α) (vis : List α) : Prop :=
  ∀ v1 a v2, vis = v1 ++ a :: v2 → ∀ c ∈ adj a, c ∈ v1

theorem concat_eq_append_cons {l : List α} {n a : α} {v1 v2 : List α}
    (h : l ++ [n] = v1 ++ a :: v2) :
    (v2 = [] ∧ a = n ∧ v1 = l) ∨ ∃ v2p, v2 = v2p ++ [n] ∧ l = v1 ++ a :: v2p := by
  rcases v2.eq_nil_or_concat with rfl | ⟨v2p, x, rfl⟩
  · have h2 := List.append_inj' h rfl
    refine Or.inl ⟨rfl, ?_, h2.1.symm⟩
    have := h2.2
    simp only [List.cons.injEq] at this
    exact this.1.symm
  · have h3 : l ++ [n] = (v1 ++ a :: v2p) ++ [x] := by
      rw [h]
      simp
    have h2 := List.append_inj' h3 rfl
    have hx : n = x := by
      have := h2.2
      simp only [List.cons.injEq] at this
      exact this.1
    exact Or.inr ⟨v2p, by rw [hx]; simp [List.concat_eq_append], h2.1⟩

theorem sortedAdj_append {adj : α → List α} {vis : List α} {n : α}
    (h : SortedAdj adj vis) (hn : ∀ c ∈ adj n, c ∈ vis) :
    SortedAdj adj (vis ++ [n]) := by
  intro v1 a v2 heq c hc
  rcases concat_eq_append_cons heq with ⟨-, ha, hv1⟩ | ⟨v2p, -, hvis⟩
  · subst ha
    rw [hv1]
    exact hn c hc
  · exact h v1 a v2p hvis c hc

/-- Closure of the visited set up to the open path: every adjacency target of
a visited node is visited or on the open path. -/
def VClosed (adj : α → List α) (vis ip : List α) : Prop :=
  ∀ a ∈ vis, ∀ c ∈ adj a, c ∈ vis ∨ c ∈ ip

theorem vclosed_close {edges : List (α × List α)} {start n : α} {T : List (Frame α)}
    {ip cp vis : List α} (hLI : LoopInv edges start (Frame.mk n true :: T) ip cp vis)
    (hV : VClosed (adjOf edges) vis ip) :
    VClosed (adjOf edges) (jsSetAdd vis n) (ip.erase n) := by
  obtain ⟨-, hnv, hclose⟩ := loopInv_true_shape hLI
  have hmap : ∀ c, c ∈ vis ∨ c ∈ ip → c ∈ jsSetAdd vis n ∨ c ∈ ip.erase n := by
    intro c hc
    rcases hc with hc | hc
    · exact Or.inl (subset_jsSetAdd hc)
    · by_cases hcn : c = n
      · exact Or.inl (by rw [hcn]; exact self_mem_jsSetAdd)
      · exact Or.inr ((List.mem_erase_of_ne hcn).mpr hc)
  intro a ha c hc
  rcases mem_jsSetAdd.mp ha with ha | ha
  · exact hmap c (hV a ha c hc)
  · subst ha
    exact hmap c (hclose c hc)

theorem vclosed_monotone {adj : α → List α} {vis ip : List α}
    (hV : VClosed adj vis ip) : VClosed adj vis ip := hV

/-- Presence of the start node in the loop state: already visited, on a
frame, or on the open path. -/
def StartInP (start : α) (todo : List (Frame α)) (ip vis : List α) : Prop :=
  start ∈ vis ∨ (∃ f ∈ todo, f.node = start) ∨ start ∈ ip

theorem dfsLoop_topo {edges : List (α × List α)} {flt circ : Bool} {fuel : Nat}
    {start : α} {vis0 vis res v r : List α} {todo : List (Frame α)} {ip cp : List α}
    (hacy : Acyclic (adjOf edges))
    (hP0 : LoopInv edges start todo ip cp vis ∧ SortedAdj (adjOf edges) vis ∧
      VClosed (adjOf edges) vis ip ∧ StartInP start todo ip vis ∧ ∀ a ∈ vis0, a ∈ vis)
    (hrun : dfsLoop edges flt circ fuel todo ip cp vis res = some (DfsOut.done v r)) :
    v.Nodup ∧ SortedAdj (adjOf edges) v ∧ VClosed (adjOf edges) v [] ∧
    StartInP start [] [] v ∧ ∀ a ∈ vis0, a ∈ v := by
  obtain ⟨ip2, cp2, hP2⟩ := dfsLoop_invariant edges flt circ
    (fun todo ip cp vis _ => LoopInv edges start todo ip cp vis ∧
      SortedAdj (adjOf edges) vis ∧ VClosed (adjOf edges) vis ip ∧
      StartInP start todo ip vis ∧ ∀ a ∈ vis0, a ∈ vis)
    (by
      intro n todo ip cp vis res hP
      obtain ⟨hLI, hS, hV, hSt, hM⟩ := hP
      have hnv : n ∉ vis := (loopInv_true_shape hLI).2.1
      have hadd : jsSetAdd vis n = vis ++ [n] := jsSetAdd_of_not_mem hnv
      refine ⟨loopInv_close hLI, ?_, vclosed_close hLI hV, ?_, ?_⟩
      · rw [hadd]
        exact sortedAdj_append hS (loopInv_close_adj_sub hLI hacy)
      · rcases hSt with h2 | ⟨f, hf, hfs⟩ | h2
        · exact Or.inl (subset_jsSetAdd h2)
        · rcases List.mem_cons.mp hf with hf | hf
          · refine Or.inl ?_
            rw [← hfs, hf]
            exact self_mem_jsSetAdd
          · exact Or.inr (Or.inl ⟨f, hf, hfs⟩)
        · by_cases hsn : start = n
          · refine Or.inl ?_
            rw [hsn]
            exact self_mem_jsSetAdd
          · exact Or.inr (Or.inr ((List.mem_erase_of_ne hsn).mpr h2))
      · intro a ha
        exact subset_jsSetAdd (hM a ha))
    (by
      intro n todo ip cp vis res hP hv
      obtain ⟨hLI, hS, hV, hSt, hM⟩ := hP
      refine ⟨loopInv_vis hLI hv, hS, hV, ?_, hM⟩
      rcases hSt with h2 | ⟨f, hf, hfs⟩ | h2
      · exact Or.inl h2
      · rcases List.mem_cons.mp hf with hf | hf
        · refine Or.inl ?_
          rw [← hfs, hf]
          exact hv
        · exact Or.inr (Or.inl ⟨f, hf, hfs⟩)
      · exact Or.inr (Or.inr h2))
    (by
      intro n todo ip cp vis res hc hP hv hip
      obtain ⟨hLI, hS, hV, hSt, hM⟩ := hP
      refine ⟨loopInv_skip hLI hip, hS, hV, ?_, hM⟩
      rcases hSt with h2 | ⟨f, hf, hfs⟩ | h2
      · exact Or.inl h2
      · rcases List.mem_cons.mp hf with hf | hf
        · refine Or.inr (Or.inr ?_)
          rw [← hfs, hf]
          exact hip
        · exact Or.inr (Or.inl ⟨f, hf, hfs⟩)
      · exact Or.inr (Or.inr h2))
    (by
      intro n todo ip cp vis res hP hv hip
      obtain ⟨hLI, hS, hV, hSt, hM⟩ := hP
      refine ⟨loopInv_exp hLI hv hip, hS, ?_, ?_, hM⟩
      · intro a ha c hc
        rcases hV a ha c hc with h2 | h2
        · exact Or.inl h2
        · exact Or.inr (subset_jsSetAdd h2)
      · rcases hSt with h2 | ⟨f, hf, hfs⟩ | h2
        · exact Or.inl h2
        · rcases List.mem_cons.mp hf with hf | hf
          · refine Or.inr (Or.inr ?_)
            rw [← hfs, hf]
            exact self_mem_jsSetAdd
          · exact Or.inr (Or.inl ⟨f, List.mem_append.mpr (Or.inr (List.mem_cons_of_mem _ hf)), hfs⟩)
        · exact Or.inr (Or.inr (subset_jsSetAdd h2)))
    fuel todo ip cp vis res hP0 v r hrun
  obtain ⟨hLI2, hS2, hV2, hSt2, hM2⟩ := hP2
  have hcp2 : cp2 = [] := stacked_nil_inv hLI2.stacked
  have hip2 : ip2 = [] := by
    rw [hLI2.ipEq, hcp2]
  subst hcp2
  subst hip2
  exact ⟨hLI2.nodupVis, hS2, hV2, hSt2, hM2⟩

theorem dfsRun_topo {edges : List (α × List α)} {flt circ : Bool} {fuel : Nat}
    {st st2 : DfsState α} {start : α}
    (hacy : Acyclic (adjOf edges))
    (hnd : st.visited.Nodup)
    (hsorted : SortedAdj (adjOf edges) st.visited)
    (hvc : VClosed (adjOf edges) st.visited [])
    (hrun : dfsRun edges flt circ fuel st start = some (Except.ok st2)) :
    st2.visited.Nodup ∧ SortedAdj (adjOf edges) st2.visited ∧
    VClosed (adjOf edges) st2.visited [] ∧ start ∈ st2.visited ∧
    ∀ a ∈ st.visited, a ∈ st2.visited := by
  unfold dfsRun at hrun
  by_cases hs : start ∈ st.visited
  · rw [if_pos hs] at hrun
    have h2 := Except.ok.inj (Option.some.inj hrun)
    rw [← h2]
    exact ⟨hnd, hsorted, hvc, hs, fun a ha => ha⟩
  · rw [if_neg hs] at hrun
    rcases hl : dfsLoop edges flt circ fuel [Frame.mk start false] [] [] st.visited st.result
      with _ | r2
    · rw [hl] at hrun
      exact Option.noConfusion hrun
    · rw [hl] at hrun
      rcases r2 with p | ⟨v, r⟩
      · exact Except.noConfusion (Option.some.inj hrun)
      · have h2 := Except.ok.inj (Option.some.inj hrun)
        have hP0 : LoopInv edges start [Frame.mk start false] [] [] st.visited ∧
            SortedAdj (adjOf edges) st.visited ∧
            VClosed (adjOf edges) st.visited [] ∧
            StartInP start [Frame.mk start false] [] st.visited ∧
            ∀ a ∈ st.visited, a ∈ st.visited := by
          refine ⟨loopInv_init edges start hnd, hsorted, hvc, ?_, fun a ha => ha⟩
          exact Or.inr (Or.inl ⟨Frame.mk start false, List.mem_cons_self _ _, rfl⟩)
        obtain ⟨hn2, hS2, hV2, hSt2, hM2⟩ := dfsLoop_topo hacy hP0 hl
        rw [← h2]
        refine ⟨hn2, hS2, hV2, ?_, hM2⟩
        rcases hSt2 with h3 | ⟨f, hf, -⟩ | h3
        · exact h3
        · simp at hf
        · simp at h3

theorem dfsLoop_loopInv_done {edges : List (α × List α)} {flt circ : Bool} {fuel : Nat}
    {start : α} {todo : List (Frame α)} {ip cp vis res v r : List α}
    (hP0 : LoopInv edges start todo ip cp vis)
    (hrun : dfsLoop edges flt circ fuel todo ip cp vis res = some (DfsOut.done v r)) :
    v.Nodup := by
  obtain ⟨ip2, cp2, hP2⟩ := dfsLoop_invariant edges flt circ
    (fun todo ip cp vis _ => LoopInv edges start todo ip cp vis)
    (fun n todo ip cp vis res hP => loopInv_close hP)
    (fun n todo ip cp vis res hP hv => loopInv_vis hP hv)
    (fun n todo ip cp vis res hc hP hv hip => loopInv_skip hP hip)
    (fun n todo ip cp vis res hP hv hip => loopInv_exp hP hv hip)
    fuel todo ip cp vis res hP0 v r hrun
  exact hP2.nodupVis

theorem dfsRun_visited_nodup {edges : List (α × List α)} {flt circ : Bool} {fuel : Nat}
    {st st2 : DfsState α} {start : α} (hnd : st.visited.Nodup)
    (hrun : dfsRun edges flt circ fuel st start = some (Except.ok st2)) :
    st2.visited.Nodup := by
  unfold dfsRun at hrun
  by_cases hs : start ∈ st.visited
  · rw [if_pos hs] at hrun
    have h2 := Except.ok.inj (Option.some.inj hrun)
    rw [← h2]
    exact hnd
  · rw [if_neg hs] at hrun
    rcases hl : dfsLoop edges flt circ fuel [Frame.mk start false] [] [] st.visited st.result
      with _ | r2
    · rw [hl] at hrun
      exact Option.noConfusion hrun
    · rw [hl] at hrun
      rcases r2 with p | ⟨v, r⟩
      · exact Except.noConfusion (Option.some.inj hrun)
      · have h2 := Except.ok.inj (Option.some.inj hrun)
        rw [← h2]
        exact dfsLoop_loopInv_done (loopInv_init edges start hnd) hl

theorem dfsLoop_error_state {edges : List (α × List α)} {flt circ : Bool} {fuel : Nat}
    {start : α} {todo : List (Frame α)} {ip cp vis res p : List α}
    (hP0 : LoopInv edges start todo ip cp vis)
    (herr : dfsLoop edges flt circ fuel todo ip cp vis res = some (DfsOut.cycleFound p)) :
    ∃ m todo2 ip2 cp2 vis2, LoopInv edges start (Frame.mk m false :: todo2) ip2 cp2 vis2 ∧
      m ∉ vis2 ∧ m ∈ ip2 ∧ circ = false ∧ p = cp2 ++ [m] := by
  obtain ⟨m, todo2, ip2, cp2, vis2, res2, hP2, hv, hip, hc, hp⟩ := dfsLoop_error edges flt circ
    (fun todo ip cp vis _ => LoopInv edges start todo ip cp vis)
    (fun n todo ip cp vis res hP => loopInv_close hP)
    (fun n todo ip cp vis res hP hv => loopInv_vis hP hv)
    (fun n todo ip cp vis res hc hP hv hip => loopInv_skip hP hip)
    (fun n todo ip cp vis res hP hv hip => loopInv_exp hP hv hip)
    fuel todo ip cp vis res hP0 p herr
  exact ⟨m, todo2, ip2, cp2, vis2, hP2, hv, hip, hc, hp⟩

theorem error_state_cycle {edges : List (α × List α)} {start m : α}
    {todo2 : List (Frame α)} {ip2 cp2 vis2 : List α}
    (hLI : LoopInv edges start (Frame.mk m false :: todo2) ip2 cp2 vis2) (hip : m ∈ ip2) :
    ReachesPlus (adjOf edges) m m := by
  rcases stacked_inv_false hLI.stacked with ⟨hcp, -, -⟩ |
    ⟨p, pend2, rest, path, hcp, hT, hrest, hpend, hwit⟩
  · rw [hLI.ipEq, hcp] at hip
    simp at hip
  · have hmadj : m ∈ adjOf edges p :=
      (hpend (Frame.mk m false) (List.mem_cons_self _ _)).2
    have hmcp : m ∈ path ++ [p] := by
      rw [← hcp, ← hLI.ipEq]
      exact hip
    have hchain2 : List.Chain' (fun a b => b ∈ adjOf edges a) (path ++ [p]) := by
      rw [← hcp]
      exact hLI.chain
    have hreach : Reaches (adjOf edges) m p :=
      chain_last_reaches hchain2 (List.getLast?_concat path) m hmcp
    exact reachesPlus_of_reaches_edge hreach hmadj

theorem dfsRun_no_cycle_error {edges : List (α × List α)} {flt circ : Bool} {fuel : Nat}
    {st : DfsState α} {start : α} {p : List α}
    (hacy : Acyclic (adjOf edges)) (hnd : st.visited.Nodup)
    (h : dfsRun edges flt circ fuel st start = some (Except.error p)) : False := by
  unfold dfsRun at h
  by_cases hs : start ∈ st.visited
  · rw [if_pos hs] at h
    exact Except.noConfusion (Option.some.inj h)
  · rw [if_neg hs] at h
    rcases hl : dfsLoop edges flt circ fuel [Frame.mk start false] [] [] st.visited st.result
      with _ | r2
    · rw [hl] at h
      exact Option.noConfusion h
    · rw [hl] at h
      rcases r2 with p2 | ⟨v, r⟩
      · obtain ⟨m, todo2, ip2, cp2, vis2, hLI, hv, hip, -, -⟩ :=
          dfsLoop_error_state (loopInv_init edges start hnd) hl
        exact hacy m (error_state_cycle hLI hip)
      · exact Except.noConfusion (Option.some.inj h)

theorem dfsRunMany_no_cycle_error {edges : List (α × List α)} {flt circ : Bool}
    {fuel : Nat} {p : List α} (hacy : Acyclic (adjOf edges)) :
    ∀ starts (st : DfsState α), st.visited.Nodup →
      dfsRunMany edges flt circ fuel starts st = some (Except.error p) → False := by
  intro starts
  induction starts with
  | nil =>
    intro st hnd h
    exact Except.noConfusion (Option.some.inj h)
  | cons n ns ih =>
    intro st hnd h
    unfold dfsRunMany at h
    rcases hr : dfsRun edges flt circ fuel st n with _ | r1
    · rw [hr] at h
      exact Option.noConfusion h
    · rw [hr] at h
      rcases r1 with p2 | st2
      · exact dfsRun_no_cycle_error hacy hnd hr
      · exact ih st2 (dfsRun_visited_nodup hnd hr) h

theorem dfsLoop_res_eq_vis {edges : List (α × List α)} {circ : Bool} {fuel : Nat}
    {todo : List (Frame α)} {ip cp vis res v r : List α} (hres : res = vis)
    (hrun : dfsLoop edges false circ fuel todo ip cp vis res = some (DfsOut.done v r)) :
    r = v := by
  obtain ⟨ip2, cp2, hP2⟩ := dfsLoop_invariant edges false circ
    (fun _ _ _ vis res => res = vis)
    (fun n todo ip cp vis res hP => by
      rw [if_pos (by simp)]
      rw [hP])
    (fun n todo ip cp vis res hP hv => hP)
    (fun n todo ip cp vis res hc hP hv hip => hP)
    (fun n todo ip cp vis res hP hv hip => hP)
    fuel todo ip cp vis res hres v r hrun
  exact hP2

theorem dfsRun_res_eq_vis {edges : List (α × List α)} {circ : Bool} {fuel : Nat}
    {st st2 : DfsState α} {start : α} (hres : st.result = st.visited)
    (hrun : dfsRun edges false circ fuel st start = some (Except.ok st2)) :
    st2.result = st2.visited := by
  unfold dfsRun at hrun
  by_cases hs : start ∈ st.visited
  · rw [if_pos hs] at hrun
    have h2 := Except.ok.inj (Option.some.inj hrun)
    rw [← h2]
    exact hres
  · rw [if_neg hs] at hrun
    rcases hl : dfsLoop edges false circ fuel [Frame.mk start false] [] [] st.visited st.result
      with _ | r2
    · rw [hl] at hrun
      exact Option.noConfusion hrun
    · rw [hl] at hrun
      rcases r2 with p | ⟨v, r⟩
      · exact Except.noConfusion (Option.some.inj hrun)
      · have h2 := Except.ok.inj (Option.some.inj hrun)
        rw [← h2]
        exact dfsLoop_res_eq_vis hres hl

theorem dfsRunMany_res_eq_vis {edges : List (α × List α)} {circ : Bool} {fuel : Nat} :
    ∀ starts (st st2 : DfsState α), st.result = st.visited →
      dfsRunMany edges false circ fuel starts st = some (Except.ok st2) →
      st2.result = st2.visited := by
  intro starts
  induction starts with
  | nil =>
    intro st st2 hres h
    have h2 := Except.ok.inj (Option.some.inj h)
    rw [← h2]
    exact hres
  | cons n ns ih =>
    intro st st2 hres h
    unfold dfsRunMany at h
    rcases hr : dfsRun edges false circ fuel st n with _ | r1
    · rw [hr] at h
      exact Option.noConfusion h
    · rw [hr] at h
      rcases r1 with p | stm
      · exact Except.noConfusion (Option.some.inj h)
      · exact ih stm st2 (dfsRun_res_eq_vis hres hr) h

theorem dfsRunMany_topo {edges : List (α × List α)} {flt circ : Bool} {fuel : Nat}
    (hacy : Acyclic (adjOf edges)) :
    ∀ starts (st stF : DfsState α), st.visited.Nodup →
      SortedAdj (adjOf edges) st.visited → VClosed (adjOf edges) st.visited [] →
      dfsRunMany edges flt circ fuel starts st = some (Except.ok stF) →
      stF.visited.Nodup ∧ SortedAdj (adjOf edges) stF.visited ∧
      VClosed (adjOf edges) stF.visited [] ∧
      (∀ s ∈ starts, s ∈ stF.visited) ∧ (∀ a ∈ st.visited, a ∈ stF.visited) := by
  intro starts
  induction starts with
  | nil =>
    intro st stF hnd hS hV h
    have h2 := Except.ok.inj (Option.some.inj h)
    rw [← h2]
    exact ⟨hnd, hS, hV, by simp, fun a ha => ha⟩
  | cons n ns ih =>
    intro st stF hnd hS hV h
    unfold dfsRunMany at h
    rcases hr : dfsRun edges flt circ fuel st n with _ | r1
    · rw [hr] at h
      exact Option.noConfusion h
    · rw [hr] at h
      rcases r1 with p | st2
      · exact Except.noConfusion (Option.some.inj h)
      · obtain ⟨hnd2, hS2, hV2, hstart2, hmono2⟩ := dfsRun_topo hacy hnd hS hV hr
        obtain ⟨hndF, hSF, hVF, hstartsF, hmonoF⟩ := ih st2 stF hnd2 hS2 hV2 h
        refine ⟨hndF, hSF, hVF, ?_, fun a ha => hmonoF a (hmono2 a ha)⟩
        intro s hs
        rcases List.mem_cons.mp hs with hs | hs
        · rw [hs]
          exact hmonoF n hstart2
        · exact hstartsF s hs

theorem reach_sub_of_vclosed {adj : α → List α} {vis : List α}
    (hV : VClosed adj vis []) {s m : α} (hs : s ∈ vis) (hr : Reaches adj s m) :
    m ∈ vis := by
  induction hr with
  | refl => exact hs
  | step he hr ih =>
    rcases hV _ hs _ he with h2 | h2
    · exact ih h2
    · simp at h2

theorem exists_entry_reaches {g : DependencyGraph α} (hwf : WellFormed g)
    (hacy : Acyclic (adjOf g.outgoingEdges)) :
    ∀ n ∈ g.nodes, ∃ s ∈ g.nodes, adjOf g.incomingEdges s = [] ∧
      Reaches (adjOf g.outgoingEdges) s n := by
  suffices H : ∀ k n, n ∈ g.nodes →
      Set.ncard {u | u ∈ g.nodes ∧ ReachesPlus (adjOf g.outgoingEdges) u n} ≤ k →
      ∃ s ∈ g.nodes, adjOf g.incomingEdges s = [] ∧
        Reaches (adjOf g.outgoingEdges) s n by
    intro n hn
    exact H _ n hn (Nat.le_refl _)
  intro k
  induction k with
  | zero =>
    intro n hn hcard
    by_cases hinc : adjOf g.incomingEdges n = []
    · exact ⟨n, hn, hinc, Reaches.refl n⟩
    · exfalso
      obtain ⟨u, hu⟩ := List.exists_mem_of_ne_nil _ hinc
      have hun : u ∈ g.nodes := (wf_in_sub hwf n u hu).2
      have hedge : n ∈ adjOf g.outgoingEdges u := (wf_mirror hwf u n).mpr hu
      have huAnc : u ∈ {u | u ∈ g.nodes ∧ ReachesPlus (adjOf g.outgoingEdges) u n} :=
        ⟨hun, n, hedge, Reaches.refl n⟩
      have hfin : {u | u ∈ g.nodes ∧ ReachesPlus (adjOf g.outgoingEdges) u n}.Finite :=
        Set.Finite.subset (g.nodes.finite_toSet) (fun w hw => hw.1)
      have hpos : 0 < Set.ncard {u | u ∈ g.nodes ∧ ReachesPlus (adjOf g.outgoingEdges) u n} :=
        (Set.ncard_pos hfin).mpr ⟨u, huAnc⟩
      exact absurd (Nat.le_zero.mp hcard) (Nat.ne_of_gt hpos)
  | succ k ih =>
    intro n hn hcard
    by_cases hinc : adjOf g.incomingEdges n = []
    · exact ⟨n, hn, hinc, Reaches.refl n⟩
    · obtain ⟨u, hu⟩ := List.exists_mem_of_ne_nil _ hinc
      have hun : u ∈ g.nodes := (wf_in_sub hwf n u hu).2
      have hedge : n ∈ adjOf g.outgoingEdges u := (wf_mirror hwf u n).mpr hu
      have huAnc : u ∈ {w | w ∈ g.nodes ∧ ReachesPlus (adjOf g.outgoingEdges) w n} :=
        ⟨hun, n, hedge, Reaches.refl n⟩
      have hfin : {w | w ∈ g.nodes ∧ ReachesPlus (adjOf g.outgoingEdges) w n}.Finite :=
        Set.Finite.subset (g.nodes.finite_toSet) (fun w hw => hw.1)
      have hsub : {w | w ∈ g.nodes ∧ ReachesPlus (adjOf g.outgoingEdges) w u} ⊆
          {w | w ∈ g.nodes ∧ ReachesPlus (adjOf g.outgoingEdges) w n} := by
        rintro w ⟨hw, b, hb, hr⟩
        exact ⟨hw, b, hb, hr.snoc hedge⟩
      have hneq : {w | w ∈ g.nodes ∧ ReachesPlus (adjOf g.outgoingEdges) w u} ≠
          {w | w ∈ g.nodes ∧ ReachesPlus (adjOf g.outgoingEdges) w n} := by
        intro heq
        have : u ∈ {w | w ∈ g.nodes ∧ ReachesPlus (adjOf g.outgoingEdges) w u} := by
          rw [heq]
          exact huAnc
        exact hacy u this.2
      have hss : {w | w ∈ g.nodes ∧ ReachesPlus (adjOf g.outgoingEdges) w u} ⊂
          {w | w ∈ g.nodes ∧ ReachesPlus (adjOf g.outgoingEdges) w n} :=
        ssubset_of_subset_of_ne hsub hneq
      have hlt := Set.ncard_lt_ncard hss hfin
      obtain ⟨s, hs, hsinc, hsr⟩ := ih u hun (Nat.lt_succ_iff.mp (Nat.lt_of_lt_of_le hlt hcard))
      exact ⟨s, hs, hsinc, hsr.snoc hedge⟩

theorem dfsRunMany_visited_nodup {edges : List (α × List α)} {flt circ : Bool} {fuel : Nat} :
    ∀ starts (st st2 : DfsState α), st.visited.Nodup →
      dfsRunMany edges flt circ fuel starts st = some (Except.ok st2) →
      st2.visited.Nodup := by
  intro starts
  induction starts with
  | nil =>
    intro st st2 hnd h
    have h2 := Except.ok.inj (Option.some.inj h)
    rw [← h2]
    exact hnd
  | cons n ns ih =>
    intro st st2 hnd h
    unfold dfsRunMany at h
    rcases hr : dfsRun edges flt circ fuel st n with _ | r1
    · rw [hr] at h
      exact Option.noConfusion h
    · rw [hr] at h
      rcases r1 with p | stm
      · exact Except.noConfusion (Option.some.inj h)
      · exact ih stm st2 (dfsRun_visited_nodup hnd hr) h

theorem sortedAdj_nil {adj : α → List α} : SortedAdj adj [] := by
  intro v1 a v2 heq
  exact absurd heq.symm (by simp)

theorem vclosed_nil {adj : α → List α} {ip : List α} : VClosed adj [] ip := by
  intro a ha
  simp at ha

theorem getOverallOrder_ok_inv {g : DependencyGraph α} {flt : Bool} {fuel : Nat}
    {order : List α} (h : getOverallOrder g flt fuel = some (Except.ok order)) :
    (g.nodes.length = 0 ∧ order = []) ∨
    (¬ g.nodes.length = 0 ∧ ∃ st1 st2,
      overallMain g flt fuel = some (Except.ok st1) ∧
      overallCompletion g flt fuel st1 = some (Except.ok st2) ∧ order = st2.result) := by
  unfold getOverallOrder at h
  by_cases hemp : g.nodes.length = 0
  · rw [if_pos hemp] at h
    exact Or.inl ⟨hemp, (Except.ok.inj (Option.some.inj h)).symm⟩
  · rw [if_neg hemp] at h
    rcases h1 : overallValidation g fuel with _ | r1
    · simp only [h1] at h
      exact Option.noConfusion h
    · simp only [h1] at h
      rcases r1 with p | u
      · simp at h
      · rcases h2 : overallMain g flt fuel with _ | r2
        · simp only [h2] at h
          exact Option.noConfusion h
        · simp only [h2] at h
          rcases r2 with p | st1
          · simp at h
          · rcases h3 : overallCompletion g flt fuel st1 with _ | r3
            · simp only [h3] at h
              exact Option.noConfusion h
            · simp only [h3] at h
              rcases r3 with p | st2
              · simp at h
              · refine Or.inr ⟨hemp, st1, st2, rfl, h3, ?_⟩
                simpa using h.symm

theorem overallValidation_ok_acyclic {g : DependencyGraph α}
    (hacy : Acyclic (adjOf g.outgoingEdges)) :
    ∃ fuel u, overallValidation g fuel = some (Except.ok u) := by
  obtain ⟨fuel, r, h⟩ := overallValidation_term g
  rcases r with p | u
  · exfalso
    unfold overallValidation at h
    split at h
    · rcases hm : dfsRunMany g.outgoingEdges false g.allowCircularDependencies fuel
          g.nodes (DfsState.mk [] []) with _ | rm
      · rw [hm] at h
        exact Option.noConfusion h
      · rw [hm] at h
        rcases rm with p2 | stv
        · exact dfsRunMany_no_cycle_error hacy g.nodes (DfsState.mk [] []) List.nodup_nil hm
        · exact Except.noConfusion (Option.some.inj h)
    · exact Except.noConfusion (Option.some.inj h)
  · exact ⟨fuel, u, h⟩

theorem overallMain_no_err {g : DependencyGraph α} {flt : Bool} {fuel : Nat} {p : List α}
    (hacy : Acyclic (adjOf g.outgoingEdges))
    (h : overallMain g flt fuel = some (Except.error p)) : False := by
  unfold overallMain at h
  exact dfsRunMany_no_cycle_error hacy _ _ List.nodup_nil h

theorem overallCompletion_no_err {g : DependencyGraph α} {flt : Bool} {fuel : Nat}
    {st1 : DfsState α} {p : List α} (hacy : Acyclic (adjOf g.outgoingEdges))
    (hnd : st1.visited.Nodup)
    (h : overallCompletion g flt fuel st1 = some (Except.error p)) : False := by
  unfold overallCompletion at h
  split at h
  · exact dfsRunMany_no_cycle_error hacy _ _ hnd h
  · exact Except.noConfusion (Option.some.inj h)

theorem mem_entryNodesOf {g : DependencyGraph α} {s : α} (hs : s ∈ g.nodes)
    (hinc : adjOf g.incomingEdges s = []) : s ∈ entryNodesOf g := by
  unfold entryNodesOf
  refine List.mem_filter.mpr ⟨hs, ?_⟩
  rw [hinc]
  rfl

/-- C1: on a well-formed acyclic graph, `getOverallOrder()` succeeds and
returns a sequence containing all nodes in which, for every edge
`(from, to)`, the node `to` appears strictly before `from`. -/
theorem c1_acyclic_topological_order (g : DependencyGraph α)
    (hwf : WellFormed g) (hacy : Acyclic (adjOf g.outgoingEdges)) :
    (∀ fuel order, getOverallOrder g false fuel = some (Except.ok order) →
      (∀ u ∈ g.nodes, u ∈ order) ∧
      (∀ u v, v ∈ adjOf g.outgoingEdges u →
        ∃ l1 l2, order = l1 ++ u :: l2 ∧ v ∈ l1)) ∧
    (∃ fuel order, getOverallOrder g false fuel = some (Except.ok order)) := by
  constructor
  · intro fuel order hok
    rcases getOverallOrder_ok_inv hok with ⟨hemp, hord⟩ | ⟨hemp, st1, st2, h2, h3, hord⟩
    · have hnil : g.nodes = [] := List.length_eq_zero.mp hemp
      subst hord
      constructor
      · intro u hu
        rw [hnil] at hu
        simp at hu
      · intro u v hv
        exfalso
        have hadj : adjOf g.outgoingEdges u = [] := by
          apply mapGetD_eq_nil_of_not_mem_keys
          rw [hwf.2.1, hnil]
          simp
        rw [hadj] at hv
        simp at hv
    · unfold overallMain at h2
      obtain ⟨hnd1, hS1, hV1, hstarts1, -⟩ := dfsRunMany_topo hacy _ _ _
        List.nodup_nil sortedAdj_nil vclosed_nil h2
      have hres1 : st1.result = st1.visited := dfsRunMany_res_eq_vis _ _ _ rfl h2
      have hst2 : st2.visited.Nodup ∧ SortedAdj (adjOf g.outgoingEdges) st2.visited ∧
          VClosed (adjOf g.outgoingEdges) st2.visited [] ∧
          (∀ a ∈ st1.visited, a ∈ st2.visited) ∧ st2.result = st2.visited := by
        unfold overallCompletion at h3
        split at h3
        · obtain ⟨hnd2, hS2, hV2, -, hmono2⟩ := dfsRunMany_topo hacy _ _ _ hnd1 hS1 hV1 h3
          exact ⟨hnd2, hS2, hV2, hmono2, dfsRunMany_res_eq_vis _ _ _ hres1 h3⟩
        · have he := Except.ok.inj (Option.some.inj h3)
          rw [← he]
          exact ⟨hnd1, hS1, hV1, fun a ha => ha, hres1⟩
      obtain ⟨hnd2, hS2, hV2, hmono2, hres2⟩ := hst2
      have hcomplete : ∀ u ∈ g.nodes, u ∈ st2.visited := by
        intro u hu
        obtain ⟨s, hs, hsinc, hsr⟩ := exists_entry_reaches hwf hacy u hu
        exact reach_sub_of_vclosed hV2 (hmono2 s (hstarts1 s (mem_entryNodesOf hs hsinc))) hsr
      subst hord
      constructor
      · intro u hu
        rw [hres2]
        exact hcomplete u hu
      · intro u v hv
        have hun : u ∈ g.nodes := (wf_out_sub hwf u v hv).1
        have hu2 : u ∈ st2.visited := hcomplete u hun
        obtain ⟨l1, l2, hsplit⟩ := List.append_of_mem hu2
        exact ⟨l1, l2, by rw [hres2, hsplit], hS2 l1 u l2 hsplit v hv⟩
  · by_cases hemp : g.nodes.length = 0
    · exact ⟨1, [], getOverallOrder_eq_empty hemp⟩
    · obtain ⟨f1, u, h1⟩ := overallValidation_ok_acyclic hacy
      obtain ⟨f2, r2, h2⟩ := dfsRunMany_term g.outgoingEdges false
        g.allowCircularDependencies (entryNodesOf g) (DfsState.mk [] [])
      have h2b : overallMain g false f2 = some r2 := h2
      rcases r2 with p | st1
      · exact absurd h2b (fun hc => overallMain_no_err hacy hc)
      · obtain ⟨f3, r3, h3⟩ := overallCompletion_term g false st1
        have hnd1 : st1.visited.Nodup := dfsRunMany_visited_nodup _ _ _ List.nodup_nil h2
        rcases r3 with p | st2
        · exact absurd h3 (fun hc => overallCompletion_no_err hacy hnd1 hc)
        · have hle1 : f1 ≤ Nat.max f1 (Nat.max f2 f3) := Nat.le_max_left _ _
          have hle2 : f2 ≤ Nat.max f1 (Nat.max f2 f3) :=
            Nat.le_trans (Nat.le_max_left f2 f3) (Nat.le_max_right _ _)
          have hle3 : f3 ≤ Nat.max f1 (Nat.max f2 f3) :=
            Nat.le_trans (Nat.le_max_right f2 f3) (Nat.le_max_right _ _)
          exact ⟨Nat.max f1 (Nat.max f2 f3), st2.result,
            getOverallOrder_eq_ok hemp (overallValidation_mono hle1 h1)
              (overallMain_mono hle2 h2b) (overallCompletion_mono hle3 h3)⟩

theorem acyclic_of_rank {adj : α → List α} (rank : α → Nat)
    (h : ∀ a b, b ∈ adj a → rank b < rank a) : Acyclic adj := by
  have hle : ∀ a b, Reaches adj a b → rank b ≤ rank a := by
    intro a b hr
    induction hr with
    | refl => exact Nat.le_refl _
    | step he hr ih => exact Nat.le_trans ih (Nat.le_of_lt (h _ _ he))
  rintro a ⟨b, hb, hr⟩
  exact absurd (h a b hb) (Nat.not_lt.mpr (hle b a hr))

theorem gDemo_acyclic : Acyclic (adjOf gDemo.outgoingEdges) := by
  apply acyclic_of_rank (fun n => 3 - n)
  intro a b hb
  match a with
  | 0 =>
    have h0 : adjOf gDemo.outgoingEdges 0 = [1] := rfl
    rw [h0] at hb
    simp only [List.mem_singleton] at hb
    subst hb
    decide
  | 1 =>
    have h0 : adjOf gDemo.outgoingEdges 1 = [2] := rfl
    rw [h0] at hb
    simp only [List.mem_singleton] at hb
    subst hb
    decide
  | 2 =>
    have h0 : adjOf gDemo.outgoingEdges 2 = [] := rfl
    rw [h0] at hb
    simp at hb
  | n + 3 =>
    have h0 : adjOf gDemo.outgoingEdges (n + 3) = [] := by
      apply mapGetD_eq_nil_of_not_mem_keys
      intro hc
      simp [gDemo] at hc
    rw [h0] at hb
    simp at hb

/-- Witness for C1 at a concrete acyclic graph. -/
theorem c1_acyclic_topological_order_witness :
    ∃ fuel order, getOverallOrder gDemo false fuel = some (Except.ok order) :=
  (c1_acyclic_topological_order gDemo (by unfold WellFormed; decide) gDemo_acyclic).2

theorem dfsLoop_cover {edges : List (α × List α)} {flt circ : Bool} {fuel : Nat}
    {start : α} {vis0 vis res v r : List α} {todo : List (Frame α)} {ip cp : List α}
    (hP0 : LoopInv edges start todo ip cp vis ∧ VClosed (adjOf edges) vis ip ∧
      StartInP start todo ip vis ∧ ∀ a ∈ vis0, a ∈ vis)
    (hrun : dfsLoop edges flt circ fuel todo ip cp vis res = some (DfsOut.done v r)) :
    v.Nodup ∧ VClosed (adjOf edges) v [] ∧ start ∈ v ∧ ∀ a ∈ vis0, a ∈ v := by
  obtain ⟨ip2, cp2, hP2⟩ := dfsLoop_invariant edges flt circ
    (fun todo ip cp vis _ => LoopInv edges start todo ip cp vis ∧
      VClosed (adjOf edges) vis ip ∧ StartInP start todo ip vis ∧ ∀ a ∈ vis0, a ∈ vis)
    (by
      intro n todo ip cp vis res hP
      obtain ⟨hLI, hV, hSt, hM⟩ := hP
      refine ⟨loopInv_close hLI, vclosed_close hLI hV, ?_, ?_⟩
      · rcases hSt with h2 | ⟨f, hf, hfs⟩ | h2
        · exact Or.inl (subset_jsSetAdd h2)
        · rcases List.mem_cons.mp hf with hf | hf
          · refine Or.inl ?_
            rw [← hfs, hf]
            exact self_mem_jsSetAdd
          · exact Or.inr (Or.inl ⟨f, hf, hfs⟩)
        · by_cases hsn : start = n
          · refine Or.inl ?_
            rw [hsn]
            exact self_mem_jsSetAdd
          · exact Or.inr (Or.inr ((List.mem_erase_of_ne hsn).mpr h2))
      · intro a ha
        exact subset_jsSetAdd (hM a ha))
    (by
      intro n todo ip cp vis res hP hv
      obtain ⟨hLI, hV, hSt, hM⟩ := hP
      refine ⟨loopInv_vis hLI hv, hV, ?_, hM⟩
      rcases hSt with h2 | ⟨f, hf, hfs⟩ | h2
      · exact Or.inl h2
      · rcases List.mem_cons.mp hf with hf | hf
        · refine Or.inl ?_
          rw [← hfs, hf]
          exact hv
        · exact Or.inr (Or.inl ⟨f, hf, hfs⟩)
      · exact Or.inr (Or.inr h2))
    (by
      intro n todo ip cp vis res hc hP hv hip
      obtain ⟨hLI, hV, hSt, hM⟩ := hP
      refine ⟨loopInv_skip hLI hip, hV, ?_, hM⟩
      rcases hSt with h2 | ⟨f, hf, hfs⟩ | h2
      · exact Or.inl h2
      · rcases List.mem_cons.mp hf with hf | hf
        · refine Or.inr (Or.inr ?_)
          rw [← hfs, hf]
          exact hip
        · exact Or.inr (Or.inl ⟨f, hf, hfs⟩)
      · exact Or.inr (Or.inr h2))
    (by
      intro n todo ip cp vis res hP hv hip
      obtain ⟨hLI, hV, hSt, hM⟩ := hP
      refine ⟨loopInv_exp hLI hv hip, ?_, ?_, hM⟩
      · intro a ha c hc
        rcases hV a ha c hc with h2 | h2
        · exact Or.inl h2
        · exact Or.inr (subset_jsSetAdd h2)
      · rcases hSt with h2 | ⟨f, hf, hfs⟩ | h2
        · exact Or.inl h2
        · rcases List.mem_cons.mp hf with hf | hf
          · refine Or.inr (Or.inr ?_)
            rw [← hfs, hf]
            exact self_mem_jsSetAdd
          · exact Or.inr (Or.inl
              ⟨f, List.mem_append.mpr (Or.inr (List.mem_cons_of_mem _ hf)), hfs⟩)
        · exact Or.inr (Or.inr (subset_jsSetAdd h2)))
    fuel todo ip cp vis res hP0 v r hrun
  obtain ⟨hLI2, hV2, hSt2, hM2⟩ := hP2
  have hcp2 : cp2 = [] := stacked_nil_inv hLI2.stacked
  have hip2 : ip2 = [] := by
    rw [hLI2.ipEq, hcp2]
  subst hcp2
  subst hip2
  refine ⟨hLI2.nodupVis, hV2, ?_, hM2⟩
  rcases hSt2 with h3 | ⟨f, hf, -⟩ | h3
  · exact h3
  · simp at hf
  · simp at h3

theorem dfsRun_cover {edges : List (α × List α)} {flt circ : Bool} {fuel : Nat}
    {st st2 : DfsState α} {start : α}
    (hnd : st.visited.Nodup) (hvc : VClosed (adjOf edges) st.visited [])
    (hrun : dfsRun edges flt circ fuel st start = some (Except.ok st2)) :
    st2.visited.Nodup ∧ VClosed (adjOf edges) st2.visited [] ∧ start ∈ st2.visited ∧
    ∀ a ∈ st.visited, a ∈ st2.visited := by
  unfold dfsRun at hrun
  by_cases hs : start ∈ st.visited
  · rw [if_pos hs] at hrun
    have h2 := Except.ok.inj (Option.some.inj hrun)
    rw [← h2]
    exact ⟨hnd, hvc, hs, fun a ha => ha⟩
  · rw [if_neg hs] at hrun
    rcases hl : dfsLoop edges flt circ fuel [Frame.mk start false] [] [] st.visited st.result
      with _ | r2
    · rw [hl] at hrun
      exact Option.noConfusion hrun
    · rw [hl] at hrun
      rcases r2 with p | ⟨v, r⟩
      · exact Except.noConfusion (Option.some.inj hrun)
      · have h2 := Except.ok.inj (Option.some.inj hrun)
        have hP0 : LoopInv edges start [Frame.mk start false] [] [] st.visited ∧
            VClosed (adjOf edges) st.visited [] ∧
            StartInP start [Frame.mk start false] [] st.visited ∧
            ∀ a ∈ st.visited, a ∈ st.visited := by
          refine ⟨loopInv_init edges start hnd, hvc, ?_, fun a ha => ha⟩
          exact Or.inr (Or.inl ⟨Frame.mk start false, List.mem_cons_self _ _, rfl⟩)
        obtain ⟨hn2, hV2, hst2, hM2⟩ := dfsLoop_cover hP0 hl
        rw [← h2]
        exact ⟨hn2, hV2, hst2, hM2⟩

theorem dfsRunMany_cover {edges : List (α × List α)} {flt circ : Bool} {fuel : Nat} :
    ∀ starts (st stF : DfsState α), st.visited.Nodup →
      VClosed (adjOf edges) st.visited [] →
      dfsRunMany edges flt circ fuel starts st = some (Except.ok stF) →
      stF.visited.Nodup ∧ VClosed (adjOf edges) stF.visited [] ∧
      (∀ s ∈ starts, s ∈ stF.visited) ∧ (∀ a ∈ st.visited, a ∈ stF.visited) := by
  intro starts
  induction starts with
  | nil =>
    intro st stF hnd hV h
    have h2 := Except.ok.inj (Option.some.inj h)
    rw [← h2]
    exact ⟨hnd, hV, by simp, fun a ha => ha⟩
  | cons n ns ih =>
    intro st stF hnd hV h
    unfold dfsRunMany at h
    rcases hr : dfsRun edges flt circ fuel st n with _ | r1
    · rw [hr] at h
      exact Option.noConfusion h
    · rw [hr] at h
      rcases r1 with p | st2
      · exact Except.noConfusion (Option.some.inj h)
      · obtain ⟨hnd2, hV2, hstart2, hmono2⟩ := dfsRun_cover hnd hV hr
        obtain ⟨hndF, hVF, hstartsF, hmonoF⟩ := ih st2 stF hnd2 hV2 h
        refine ⟨hndF, hVF, ?_, fun a ha => hmonoF a (hmono2 a ha)⟩
        intro s hs
        rcases List.mem_cons.mp hs with hs | hs
        · rw [hs]
          exact hmonoF n hstart2
        · exact hstartsF s hs

theorem dfsLoop_qpres {edges : List (α × List α)} {flt circ : Bool} {fuel : Nat}
    (Q : α → Prop) (hQ : ∀ a c, Q a → c ∈ adjOf edges a → Q c)
    {vis0 vis res v r : List α} {todo : List (Frame α)} {ip cp : List α}
    (hframes : ∀ f ∈ todo, Q f.node) (hvis : ∀ a ∈ vis, a ∈ vis0 ∨ Q a)
    (hrun : dfsLoop edges flt circ fuel todo ip cp vis res = some (DfsOut.done v r)) :
    ∀ a ∈ v, a ∈ vis0 ∨ Q a := by
  obtain ⟨ip2, cp2, hP2⟩ := dfsLoop_invariant edges flt circ
    (fun todo _ _ vis _ => (∀ f ∈ todo, Q f.node) ∧ ∀ a ∈ vis, a ∈ vis0 ∨ Q a)
    (by
      intro n todo ip cp vis res hP
      refine ⟨fun f hf => hP.1 f (List.mem_cons_of_mem _ hf), ?_⟩
      intro a ha
      rcases mem_jsSetAdd.mp ha with ha | ha
      · exact hP.2 a ha
      · subst ha
        exact Or.inr (hP.1 (Frame.mk a true) (List.mem_cons_self _ _)))
    (by
      intro n todo ip cp vis res hP hv
      exact ⟨fun f hf => hP.1 f (List.mem_cons_of_mem _ hf), hP.2⟩)
    (by
      intro n todo ip cp vis res hc hP hv hip
      exact ⟨fun f hf => hP.1 f (List.mem_cons_of_mem _ hf), hP.2⟩)
    (by
      intro n todo ip cp vis res hP hv hip
      refine ⟨?_, hP.2⟩
      intro f hf
      rcases List.mem_append.mp hf with hf | hf
      · rcases List.mem_map.mp hf with ⟨c, hc, hfc⟩
        rw [← hfc]
        exact hQ n c (hP.1 (Frame.mk n false) (List.mem_cons_self _ _)) hc
      · rcases List.mem_cons.mp hf with hf | hf
        · rw [hf]
          exact hP.1 (Frame.mk n false) (List.mem_cons_self _ _)
        · exact hP.1 f (List.mem_cons_of_mem _ hf))
    fuel todo ip cp vis res ⟨hframes, hvis⟩ v r hrun
  exact hP2.2

theorem dfsRun_qpres {edges : List (α × List α)} {flt circ : Bool} {fuel : Nat}
    (Q : α → Prop) (hQ : ∀ a c, Q a → c ∈ adjOf edges a → Q c)
    {st st2 : DfsState α} {start : α} (hstart : Q start)
    (hvis : ∀ a ∈ st.visited, Q a)
    (hrun : dfsRun edges flt circ fuel st start = some (Except.ok st2)) :
    ∀ a ∈ st2.visited, Q a := by
  unfold dfsRun at hrun
  by_cases hs : start ∈ st.visited
  · rw [if_pos hs] at hrun
    have h2 := Except.ok.inj (Option.some.inj hrun)
    rw [← h2]
    exact hvis
  · rw [if_neg hs] at hrun
    rcases hl : dfsLoop edges flt circ fuel [Frame.mk start false] [] [] st.visited st.result
      with _ | r2
    · rw [hl] at hrun
      exact Option.noConfusion hrun
    · rw [hl] at hrun
      rcases r2 with p | ⟨v, r⟩
      · exact Except.noConfusion (Option.some.inj hrun)
      · have h2 := Except.ok.inj (Option.some.inj hrun)
        have h3 : ∀ a ∈ v, a ∈ st.visited ∨ Q a := dfsLoop_qpres Q hQ
          (by
            intro f hf
            rcases List.mem_cons.mp hf with hf | hf
            · rw [hf]
              exact hstart
            · simp at hf)
          (fun a ha => Or.inr (hvis a ha)) hl
        rw [← h2]
        intro a ha
        rcases h3 a ha with h4 | h4
        · exact hvis a h4
        · exact h4

theorem dfsRunMany_qpres {edges : List (α × List α)} {flt circ : Bool} {fuel : Nat}
    (Q : α → Prop) (hQ : ∀ a c, Q a → c ∈ adjOf edges a → Q c) :
    ∀ starts (st st2 : DfsState α), (∀ s ∈ starts, Q s) → (∀ a ∈ st.visited, Q a) →
      dfsRunMany edges flt circ fuel starts st = some (Except.ok st2) →
      ∀ a ∈ st2.visited, Q a := by
  intro starts
  induction starts with
  | nil =>
    intro st st2 hstarts hvis h
    have h2 := Except.ok.inj (Option.some.inj h)
    rw [← h2]
    exact hvis
  | cons n ns ih =>
    intro st st2 hstarts hvis h
    unfold dfsRunMany at h
    rcases hr : dfsRun edges flt circ fuel st n with _ | r1
    · rw [hr] at h
      exact Option.noConfusion h
    · rw [hr] at h
      rcases r1 with p | stm
      · exact Except.noConfusion (Option.some.inj h)
      · exact ih stm st2 (fun s hs => hstarts s (List.mem_cons_of_mem _ hs))
          (dfsRun_qpres Q hQ (hstarts n (List.mem_cons_self _ _)) hvis hr) h

theorem dfsLoop_circ_true_no_cycle {edges : List (α × List α)} {flt : Bool} {fuel : Nat}
    {todo : List (Frame α)} {ip cp vis res p : List α}
    (h : dfsLoop edges flt true fuel todo ip cp vis res = some (DfsOut.cycleFound p)) :
    False := by
  obtain ⟨m, todo2, ip2, cp2, vis2, res2, -, -, -, hc, -⟩ := dfsLoop_error edges flt true
    (fun _ _ _ _ _ => True) (fun _ _ _ _ _ _ _ => trivial) (fun _ _ _ _ _ _ _ _ => trivial)
    (fun _ _ _ _ _ _ _ _ _ _ => trivial) (fun _ _ _ _ _ _ _ _ _ => trivial)
    fuel todo ip cp vis res trivial p h
  exact Bool.noConfusion hc

theorem dfsRun_circ_true_no_err {edges : List (α × List α)} {flt : Bool} {fuel : Nat}
    {st : DfsState α} {start : α} {p : List α}
    (h : dfsRun edges flt true fuel st start = some (Except.error p)) : False := by
  unfold dfsRun at h
  by_cases hs : start ∈ st.visited
  · rw [if_pos hs] at h
    exact Except.noConfusion (Option.some.inj h)
  · rw [if_neg hs] at h
    rcases hl : dfsLoop edges flt true fuel [Frame.mk start false] [] [] st.visited st.result
      with _ | r2
    · rw [hl] at h
      exact Option.noConfusion h
    · rw [hl] at h
      rcases r2 with p2 | ⟨v, r⟩
      · exact dfsLoop_circ_true_no_cycle hl
      · exact Except.noConfusion (Option.some.inj h)

theorem dfsRunMany_circ_true_no_err {edges : List (α × List α)} {flt : Bool} {fuel : Nat} :
    ∀ starts (st : DfsState α) p,
      dfsRunMany edges flt true fuel starts st = some (Except.error p) → False := by
  intro starts
  induction starts with
  | nil =>
    intro st p h
    exact Except.noConfusion (Option.some.inj h)
  | cons n ns ih =>
    intro st p h
    unfold dfsRunMany at h
    rcases hr : dfsRun edges flt true fuel st n with _ | r1
    · rw [hr] at h
      exact Option.noConfusion h
    · rw [hr] at h
      rcases r1 with p2 | st2
      · exact dfsRun_circ_true_no_err hr
      · exact ih st2 p h

theorem overallValidation_circ_true {g : DependencyGraph α} {fuel : Nat}
    (hcirc : g.allowCircularDependencies = true) :
    overallValidation g fuel = some (Except.ok ()) := by
  unfold overallValidation
  rw [if_neg]
  rw [hcirc]
  simp

theorem getOverallOrder_no_err_circ_true {g : DependencyGraph α} {flt : Bool} {fuel : Nat}
    {e : GraphError α} (hcirc : g.allowCircularDependencies = true)
    (h : getOverallOrder g flt fuel = some (Except.error e)) : False := by
  unfold getOverallOrder at h
  by_cases hemp : g.nodes.length = 0
  · rw [if_pos hemp] at h
    exact Except.noConfusion (Option.some.inj h)
  · rw [if_neg hemp] at h
    simp only [overallValidation_circ_true hcirc] at h
    rcases h2 : overallMain g flt fuel with _ | r2
    · simp only [h2] at h
      exact Option.noConfusion h
    · simp only [h2] at h
      rcases r2 with p | st1
      · unfold overallMain at h2
        rw [hcirc] at h2
        exact dfsRunMany_circ_true_no_err _ _ _ h2
      · rcases h3 : overallCompletion g flt fuel st1 with _ | r3
        · simp only [h3] at h
          exact Option.noConfusion h
        · simp only [h3] at h
          rcases r3 with p | st2
          · unfold overallCompletion at h3
            rw [if_pos hcirc] at h3
            rw [hcirc] at h3
            exact dfsRunMany_circ_true_no_err _ _ _ h3
          · simp at h

/-- C3: with `allowCircularDependencies = true`, `getOverallOrder()` (with
`filterLeaves = false`) returns every node of a well-formed graph exactly
once, and never raises an error. -/
theorem c3_allow_circular_all_nodes (g : DependencyGraph α)
    (hwf : WellFormed g) (hcirc : g.allowCircularDependencies = true) :
    (∀ fuel e, getOverallOrder g false fuel ≠ some (Except.error e)) ∧
    (∀ fuel order, getOverallOrder g false fuel = some (Except.ok order) →
      order.Nodup ∧ ∀ n, n ∈ order ↔ n ∈ g.nodes) ∧
    (∃ fuel order, getOverallOrder g false fuel = some (Except.ok order)) := by
  refine ⟨?_, ?_, ?_⟩
  · intro fuel e hc
    exact getOverallOrder_no_err_circ_true hcirc hc
  · intro fuel order hok
    rcases getOverallOrder_ok_inv hok with ⟨hemp, hord⟩ | ⟨hemp, st1, st2, h2, h3, hord⟩
    · have hnil : g.nodes = [] := List.length_eq_zero.mp hemp
      subst hord
      rw [hnil]
      exact ⟨List.nodup_nil, by simp⟩
    · unfold overallMain at h2
      obtain ⟨hnd1, hV1, hstarts1, -⟩ := dfsRunMany_cover _ _ _
        List.nodup_nil vclosed_nil h2
      have hres1 : st1.result = st1.visited := dfsRunMany_res_eq_vis _ _ _ rfl h2
      have hcompl : overallCompletion g false fuel st1 =
          dfsRunMany g.outgoingEdges false g.allowCircularDependencies fuel
            (g.nodes.filter (fun n => decide (n ∉ st1.result))) st1 := by
        unfold overallCompletion
        rw [if_pos hcirc]
      rw [hcompl] at h3
      obtain ⟨hnd2, hV2, hstarts2, hmono2⟩ := dfsRunMany_cover _ _ _ hnd1 hV1 h3
      have hres2 : st2.result = st2.visited := dfsRunMany_res_eq_vis _ _ _ hres1 h3
      have hsub : ∀ a ∈ st2.visited, a ∈ g.nodes := by
        refine dfsRunMany_qpres (fun a => a ∈ g.nodes)
          (fun a c ha hc => (wf_out_sub hwf a c hc).2) _ _ _ ?_ ?_ h3
        · intro s hs
          exact List.mem_of_mem_filter hs
        · refine dfsRunMany_qpres (fun a => a ∈ g.nodes)
            (fun a c ha hc => (wf_out_sub hwf a c hc).2) _ _ _ ?_ (by simp) h2
          intro s hs
          exact List.mem_of_mem_filter hs
      subst hord
      rw [hres2]
      refine ⟨hnd2, ?_⟩
      intro n
      constructor
      · exact hsub n
      · intro hn
        by_cases hn1 : n ∈ st1.result
        · rw [hres1] at hn1
          exact hmono2 n hn1
        · refine hstarts2 n ?_
          refine List.mem_filter.mpr ⟨hn, ?_⟩
          simp [hn1]
  · by_cases hemp : g.nodes.length = 0
    · exact ⟨1, [], getOverallOrder_eq_empty hemp⟩
    · obtain ⟨fuel, r, h⟩ := getOverallOrder_term g false
      rcases r with e | order
      · exact absurd h (fun hc => getOverallOrder_no_err_circ_true hcirc hc)
      · exact ⟨fuel, order, h⟩

/-- Witness for C3 at a concrete cyclic graph with an isolated pure cycle. -/
theorem c3_allow_circular_all_nodes_witness :
    ∃ fuel order, getOverallOrder
      (DependencyGraph.mk [0, 1, 2] [(0, [1]), (1, [2]), (2, [0])]
        [(0, [2]), (1, [0]), (2, [1])] true) false fuel = some (Except.ok order) :=
  (c3_allow_circular_all_nodes
    (DependencyGraph.mk [0, 1, 2] [(0, [1]), (1, [2]), (2, [0])]
      [(0, [2]), (1, [0]), (2, [1])] true)
    (by unfold WellFormed; decide) rfl).2.2

theorem dfsRun_reach_iff {edges : List (α × List α)} {flt circ : Bool} {fuel : Nat}
    {st2 : DfsState α} {start : α}
    (hrun : dfsRun edges flt circ fuel (DfsState.mk [] []) start = some (Except.ok st2)) :
    ∀ m, m ∈ st2.visited ↔ Reaches (adjOf edges) start m := by
  intro m
  constructor
  · intro hm
    have h := dfsRun_qpres (fun a => Reaches (adjOf edges) start a)
      (fun a c ha hc => ha.snoc hc) (Reaches.refl start) (by simp) hrun
    exact h m hm
  · intro hr
    obtain ⟨-, hV, hstart, -⟩ := dfsRun_cover List.nodup_nil vclosed_nil hrun
    exact reach_sub_of_vclosed hV hstart hr

theorem reaches_flip_of_mirror {adj1 adj2 : α → List α} {N : List α}
    (hm : ∀ a ∈ N, ∀ b, b ∈ adj1 a → a ∈ adj2 b)
    (hsub : ∀ a c, c ∈ adj1 a → c ∈ N) :
    ∀ a b, a ∈ N → Reaches adj1 a b → Reaches adj2 b a := by
  intro a b ha hr
  induction hr with
  | refl => exact Reaches.refl _
  | step he hr ih =>
    refine Reaches.snoc (ih (hsub _ _ he)) ?_
    exact hm _ ha _ he

theorem reaches_flip {g : DependencyGraph α} (hwf : WellFormed g) {a b : α}
    (ha : a ∈ g.nodes) (hb : b ∈ g.nodes) :
    Reaches (adjOf g.outgoingEdges) a b ↔ Reaches (adjOf g.incomingEdges) b a := by
  constructor
  · refine reaches_flip_of_mirror ?_ ?_ a b ha
    · intro x hx y hy
      exact (wf_mirror hwf x y).mp hy
    · intro x c hc
      exact (wf_out_sub hwf x c hc).2
  · refine reaches_flip_of_mirror ?_ ?_ b a hb
    · intro x hx y hy
      exact (wf_mirror hwf y x).mpr hy
    · intro x c hc
      exact (wf_in_sub hwf x c hc).2

/-- C8: for nodes of a well-formed graph, whenever both calls return,
`n ∈ getDependenciesOf(n2)` exactly when `n2 ∈ getDependentsOf(n)`. -/
theorem c8_dependencies_dependents_symmetry (g : DependencyGraph α) (n n2 : α)
    (fuel1 fuel2 : Nat) (l1 l2 : List α) (hwf : WellFormed g)
    (hn : n ∈ g.nodes) (hn2 : n2 ∈ g.nodes)
    (h1 : getDependenciesOf g n2 false fuel1 = some (Except.ok l1))
    (h2 : getDependentsOf g n false fuel2 = some (Except.ok l2)) :
    n ∈ l1 ↔ n2 ∈ l2 := by
  obtain ⟨-, st1, hr1, hl1⟩ := getDependenciesOf_ok h1
  obtain ⟨-, st2, hr2, hl2⟩ := getDependentsOf_ok h2
  have hres1 : st1.result = st1.visited := dfsRun_res_eq_vis rfl hr1
  have hres2 : st2.result = st2.visited := dfsRun_res_eq_vis rfl hr2
  have hnd1 : st1.result.Nodup := dfsRun_result_nodup List.nodup_nil hr1
  have hnd2 : st2.result.Nodup := dfsRun_result_nodup List.nodup_nil hr2
  have hiff1 : ∀ m, m ∈ st1.visited ↔ Reaches (adjOf g.outgoingEdges) n2 m :=
    dfsRun_reach_iff hr1
  have hiff2 : ∀ m, m ∈ st2.visited ↔ Reaches (adjOf g.incomingEdges) n m :=
    dfsRun_reach_iff hr2
  rw [hl1, hl2, hnd1.mem_erase_iff, hnd2.mem_erase_iff, hres1, hres2, hiff1, hiff2]
  rw [reaches_flip hwf hn2 hn]
  constructor
  · intro hc
    exact ⟨fun he => hc.1 he.symm, hc.2⟩
  · intro hc
    exact ⟨fun he => hc.1 he.symm, hc.2⟩

/-- Witness for C8 at a concrete input. -/
theorem c8_dependencies_dependents_symmetry_witness : (2 ∈ [2, 1]) ↔ (0 ∈ [0, 1]) :=
  c8_dependencies_dependents_symmetry gDemo 2 0 100 100 [2, 1] [0, 1]
    (by unfold WellFormed; decide) (by decide) (by decide) rfl rfl

/-- A graph whose cycle (`1 → 2 → 1`) is entered through a lead-in edge
`0 → 1`: traversing from `0` detects the cycle with the lead-in node on the
reported path. -/
def gCycleLeadIn : DependencyGraph Nat :=
  applyOps [GraphOp.addNode 0, GraphOp.addNode 1, GraphOp.addNode 2,
    GraphOp.addDependency 0 1, GraphOp.addDependency 1 2, GraphOp.addDependency 2 1]
    DependencyGraph.empty

theorem dfsRun_error_facts {edges : List (α × List α)} {flt circ : Bool} {fuel : Nat}
    {st : DfsState α} {start : α} {p : List α} (hnd : st.visited.Nodup)
    (h : dfsRun edges flt circ fuel st start = some (Except.error p)) :
    ∃ m, p.getLast? = some m ∧ m ∈ p.dropLast ∧ p.head? = some start ∧
      List.Chain' (fun a b => b ∈ adjOf edges a) p := by
  unfold dfsRun at h
  by_cases hs : start ∈ st.visited
  · rw [if_pos hs] at h
    exact Except.noConfusion (Option.some.inj h)
  · rw [if_neg hs] at h
    rcases hl : dfsLoop edges flt circ fuel [Frame.mk start false] [] [] st.visited st.result
      with _ | r2
    · rw [hl] at h
      exact Option.noConfusion h
    · rw [hl] at h
      rcases r2 with p2 | ⟨v, r⟩
      · have hp : p2 = p := Except.error.inj (Option.some.inj h)
        subst hp
        obtain ⟨m, todo2, ip2, cp2, vis2, hLI, hv, hip, -, hpe⟩ :=
          dfsLoop_error_state (loopInv_init edges start hnd) hl
        subst hpe
        have hmcp : m ∈ cp2 := by
          rw [← hLI.ipEq]
          exact hip
        have hseg : ∃ q path2, cp2 = path2 ++ [q] ∧ m ∈ adjOf edges q := by
          rcases stacked_inv_false hLI.stacked with ⟨hcp, -, -⟩ |
            ⟨q, pend2, rest, path2, hcp, -, -, hpend, -⟩
          · rw [hcp] at hmcp
            simp at hmcp
          · exact ⟨q, path2, hcp, (hpend (Frame.mk m false) (List.mem_cons_self _ _)).2⟩
        obtain ⟨q, path2, hcp, hmadj⟩ := hseg
        refine ⟨m, List.getLast?_concat cp2, ?_, ?_, ?_⟩
        · rw [List.dropLast_concat]
          exact hmcp
        · rcases path2 with _ | ⟨b, l⟩
          · rw [hcp]
            simp only [List.nil_append, List.cons_append, List.head?_cons]
            rw [hLI.headStart q [] (by simpa using hcp)]
          · rw [hcp]
            simp only [List.cons_append, List.head?_cons]
            rw [hLI.headStart b (l ++ [q]) (by simpa using hcp)]
        · rw [List.chain'_append]
          refine ⟨hLI.chain, List.chain'_singleton m, ?_⟩
          intro x hx y hy
          simp only [List.head?_cons, Option.mem_def, Option.some.injEq] at hy
          subst hy
          rw [hcp, List.getLast?_concat] at hx
          simp only [Option.mem_def, Option.some.injEq] at hx
          subst hx
          exact hmadj
      · exact Except.noConfusion (Option.some.inj h)

theorem getDependenciesOf_err {g : DependencyGraph α} {node : α} {flt : Bool}
    {fuel : Nat} {p : List α}
    (h : getDependenciesOf g node flt fuel = some (Except.error (GraphError.circular p))) :
    node ∈ g.nodes ∧ dfsRun g.outgoingEdges flt g.allowCircularDependencies fuel
      (DfsState.mk [] []) node = some (Except.error p) := by
  unfold getDependenciesOf at h
  by_cases hn : node ∈ g.nodes
  · rw [if_pos hn] at h
    rcases hr : dfsRun g.outgoingEdges flt g.allowCircularDependencies fuel
        (DfsState.mk [] []) node with _ | r
    · rw [hr] at h
      exact Option.noConfusion h
    · rw [hr] at h
      rcases r with p2 | st
      · have hp := GraphError.circular.inj (Except.error.inj (Option.some.inj h))
        exact ⟨hn, by rw [hp]⟩
      · exact Except.noConfusion (Option.some.inj h)
  · rw [if_neg hn] at h
    exact GraphError.noConfusion (Except.error.inj (Option.some.inj h))

theorem getDependentsOf_err {g : DependencyGraph α} {node : α} {flt : Bool}
    {fuel : Nat} {p : List α}
    (h : getDependentsOf g node flt fuel = some (Except.error (GraphError.circular p))) :
    node ∈ g.nodes ∧ dfsRun g.incomingEdges flt g.allowCircularDependencies fuel
      (DfsState.mk [] []) node = some (Except.error p) := by
  unfold getDependentsOf at h
  by_cases hn : node ∈ g.nodes
  · rw [if_pos hn] at h
    rcases hr : dfsRun g.incomingEdges flt g.allowCircularDependencies fuel
        (DfsState.mk [] []) node with _ | r
    · rw [hr] at h
      exact Option.noConfusion h
    · rw [hr] at h
      rcases r with p2 | st
      · have hp := GraphError.circular.inj (Except.error.inj (Option.some.inj h))
        exact ⟨hn, by rw [hp]⟩
      · exact Except.noConfusion (Option.some.inj h)
  · rw [if_neg hn] at h
    exact GraphError.noConfusion (Except.error.inj (Option.some.inj h))

theorem dfsRunMany_error_run {edges : List (α × List α)} {flt circ : Bool} {fuel : Nat} :
    ∀ starts (st : DfsState α) p, st.visited.Nodup →
      dfsRunMany edges flt circ fuel starts st = some (Except.error p) →
      ∃ s st2, s ∈ starts ∧ st2.visited.Nodup ∧
        dfsRun edges flt circ fuel st2 s = some (Except.error p) := by
  intro starts
  induction starts with
  | nil =>
    intro st p hnd h
    exact Except.noConfusion (Option.some.inj h)
  | cons n ns ih =>
    intro st p hnd h
    unfold dfsRunMany at h
    rcases hr : dfsRun edges flt circ fuel st n with _ | r1
    · rw [hr] at h
      exact Option.noConfusion h
    · rw [hr] at h
      rcases r1 with p2 | st2
      · have hp : p2 = p := Except.error.inj (Option.some.inj h)
        subst hp
        exact ⟨n, st, List.mem_cons_self _ _, hnd, hr⟩
      · obtain ⟨s, st3, hs, hnd3, hr3⟩ := ih st2 p (dfsRun_visited_nodup hnd hr) h
        exact ⟨s, st3, List.mem_cons_of_mem _ hs, hnd3, hr3⟩

theorem getOverallOrder_err_inv {g : DependencyGraph α} {flt : Bool} {fuel : Nat}
    {e : GraphError α} (h : getOverallOrder g flt fuel = some (Except.error e)) :
    ∃ p, e = GraphError.circular p ∧
      (dfsRunMany g.outgoingEdges false g.allowCircularDependencies fuel g.nodes
          (DfsState.mk [] []) = some (Except.error p) ∨
        overallMain g flt fuel = some (Except.error p) ∨
        ∃ st1, overallMain g flt fuel = some (Except.ok st1) ∧
          overallCompletion g flt fuel st1 = some (Except.error p)) := by
  unfold getOverallOrder at h
  by_cases hemp : g.nodes.length = 0
  · rw [if_pos hemp] at h
    exact Except.noConfusion (Option.some.inj h)
  · rw [if_neg hemp] at h
    rcases h1 : overallValidation g fuel with _ | r1
    · simp only [h1] at h
      exact Option.noConfusion h
    · simp only [h1] at h
      rcases r1 with p | u
      · refine ⟨p, by simpa using (Except.error.inj (Option.some.inj h)).symm, Or.inl ?_⟩
        unfold overallValidation at h1
        split at h1
        · rcases hm : dfsRunMany g.outgoingEdges false g.allowCircularDependencies fuel
              g.nodes (DfsState.mk [] []) with _ | rm
          · rw [hm] at h1
            exact Option.noConfusion h1
          · rw [hm] at h1
            rcases rm with p2 | stv
            · have hp : p2 = p := Except.error.inj (Option.some.inj h1)
              rw [← hp]
            · exact Except.noConfusion (Option.some.inj h1)
        · exact Except.noConfusion (Option.some.inj h1)
      · rcases h2 : overallMain g flt fuel with _ | r2
        · simp only [h2] at h
          exact Option.noConfusion h
        · simp only [h2] at h
          rcases r2 with p | st1
          · exact ⟨p, by simpa using (Except.error.inj (Option.some.inj h)).symm,
              Or.inr (Or.inl rfl)⟩
          · rcases h3 : overallCompletion g flt fuel st1 with _ | r3
            · simp only [h3] at h
              exact Option.noConfusion h
            · simp only [h3] at h
              rcases r3 with p | st2
              · exact ⟨p, by simpa using (Except.error.inj (Option.some.inj h)).symm,
                  Or.inr (Or.inr ⟨st1, rfl, h3⟩)⟩
              · simp at h

/-- C2 counterexample: for the graph with edges `0 → 1`, `1 → 2`, `2 → 1`,
the traversal from `0` reports the path `[0, 1, 2, 1]`.  The repeated node is
`1` and the subsequence from its first occurrence is `[1, 2, 1]`, so the
reported path is not that subsequence and contains the lead-in node `0`,
which lies outside the cycle — refuting the claim that the path contains no
nodes outside the cycle. -/
theorem c2_counterexample :
    getDependenciesOf gCycleLeadIn 0 false 100
      = some (Except.error (GraphError.circular [0, 1, 2, 1])) ∧
    circularErrorNode ([0, 1, 2, 1] : List Nat) = some 1 ∧
    ([0, 1, 2, 1] : List Nat) ≠ [1, 2, 1] ∧
    (0 : Nat) ∈ [0, 1, 2, 1] ∧ (0 : Nat) ∉ [1, 2, 1] :=
  ⟨rfl, rfl, by decide, by decide, by decide⟩

/-- C2 amended: a raised `CircularDependencyError` carries the traversal's
entire current path — from the start node of the erroring traversal through to
the repeated node again (so it may include lead-in nodes outside the cycle) —
consecutive elements joined by edges; the error's `node` field is the path's
last element, which repeats an earlier element of the path. -/
theorem c2_circular_error_path (g : DependencyGraph α) (node : α) (flt : Bool)
    (fuel : Nat) :
    (∀ p, getDependenciesOf g node flt fuel = some (Except.error (GraphError.circular p)) →
      ∃ m, circularErrorNode p = some m ∧ m ∈ p.dropLast ∧ p.head? = some node ∧
        List.Chain' (fun a b => b ∈ adjOf g.outgoingEdges a) p) ∧
    (∀ p, getDependentsOf g node flt fuel = some (Except.error (GraphError.circular p)) →
      ∃ m, circularErrorNode p = some m ∧ m ∈ p.dropLast ∧ p.head? = some node ∧
        List.Chain' (fun a b => b ∈ adjOf g.incomingEdges a) p) ∧
    (∀ p, getOverallOrder g flt fuel = some (Except.error (GraphError.circular p)) →
      ∃ s m, s ∈ g.nodes ∧ circularErrorNode p = some m ∧ m ∈ p.dropLast ∧
        p.head? = some s ∧ List.Chain' (fun a b => b ∈ adjOf g.outgoingEdges a) p) := by
  refine ⟨?_, ?_, ?_⟩
  · intro p hp
    obtain ⟨-, hr⟩ := getDependenciesOf_err hp
    obtain ⟨m, h1, h2, h3, h4⟩ := dfsRun_error_facts List.nodup_nil hr
    exact ⟨m, h1, h2, h3, h4⟩
  · intro p hp
    obtain ⟨-, hr⟩ := getDependentsOf_err hp
    obtain ⟨m, h1, h2, h3, h4⟩ := dfsRun_error_facts List.nodup_nil hr
    exact ⟨m, h1, h2, h3, h4⟩
  · intro p hp
    obtain ⟨p2, hpe, hsrc⟩ := getOverallOrder_err_inv hp
    have hp2 : p2 = p := (GraphError.circular.inj hpe).symm
    subst hp2
    rcases hsrc with hsrc | hsrc | ⟨st1, hmain, hcompl⟩
    · obtain ⟨s, st2, hs, hnd2, hr⟩ := dfsRunMany_error_run _ _ _ List.nodup_nil hsrc
      obtain ⟨m, h1, h2, h3, h4⟩ := dfsRun_error_facts hnd2 hr
      exact ⟨s, m, hs, h1, h2, h3, h4⟩
    · unfold overallMain at hsrc
      obtain ⟨s, st2, hs, hnd2, hr⟩ := dfsRunMany_error_run _ _ _ List.nodup_nil hsrc
      obtain ⟨m, h1, h2, h3, h4⟩ := dfsRun_error_facts hnd2 hr
      exact ⟨s, m, List.mem_of_mem_filter hs, h1, h2, h3, h4⟩
    · unfold overallCompletion at hcompl
      split at hcompl
      · unfold overallMain at hmain
        have hnd1 : st1.visited.Nodup := dfsRunMany_visited_nodup _ _ _ List.nodup_nil hmain
        obtain ⟨s, st2, hs, hnd2, hr⟩ := dfsRunMany_error_run _ _ _ hnd1 hcompl
        obtain ⟨m, h1, h2, h3, h4⟩ := dfsRun_error_facts hnd2 hr
        exact ⟨s, m, List.mem_of_mem_filter hs, h1, h2, h3, h4⟩
      · exact Except.noConfusion (Option.some.inj hcompl)

/-- Witness for the amended C2 at a concrete input. -/
theorem c2_circular_error_path_witness :
    ∃ m, circularErrorNode ([0, 1, 2, 1] : List Nat) = some m ∧
      m ∈ ([0, 1, 2, 1] : List Nat).dropLast ∧
      ([0, 1, 2, 1] : List Nat).head? = some 0 ∧
      List.Chain' (fun a b => b ∈ adjOf gCycleLeadIn.outgoingEdges a) [0, 1, 2, 1] :=
  (c2_circular_error_path gCycleLeadIn 0 false 100).1 [0, 1, 2, 1] rfl

theorem split_middle_cases {β : Type} {l1 l2 t1 t2 : List β} {x y : β}
    (h : l1 ++ x :: l2 = t1 ++ y :: t2) :
    y ∈ l1 ∨ (t1 = l1 ∧ y = x ∧ t2 = l2) ∨
      ∃ t1b, t1 = l1 ++ x :: t1b ∧ l2 = t1b ++ y :: t2 := by
  rcases List.append_eq_append_iff.mp h with ⟨a2, h1, h2⟩ | ⟨c2, h1, h2⟩
  · rcases a2 with _ | ⟨z, a3⟩
    · simp only [List.append_nil] at h1
      simp only [List.nil_append, List.cons.injEq] at h2
      exact Or.inr (Or.inl ⟨h1, h2.1.symm, h2.2.symm⟩)
    · simp only [List.cons_append, List.cons.injEq] at h2
      refine Or.inr (Or.inr ⟨a3, ?_, h2.2⟩)
      rw [h2.1]
      exact h1
  · rcases c2 with _ | ⟨z, c3⟩
    · simp only [List.append_nil] at h1
      simp only [List.nil_append, List.cons.injEq] at h2
      exact Or.inr (Or.inl ⟨h1.symm, h2.1, h2.2⟩)
    · simp only [List.cons_append, List.cons.injEq] at h2
      refine Or.inl ?_
      rw [h1, h2.1]
      exact List.mem_append_right _ (List.mem_cons_self _ _)

/-- The invariant refuting completion in the presence of a self-loop on the
start node `a` with cycles disallowed: `a` is never marked visited, an
`a`-frame is always on the stack, and below any expanded `a`-frame sits a
pending `a`-frame (the self-edge child) that would trigger the cycle error
before the expanded frame could close. -/
def SelfLoopInv (a : α) (todo : List (Frame α)) (ip vis : List α) : Prop :=
  a ∉ vis ∧ (∃ f ∈ todo, f.node = a) ∧
  ∀ t1 t2, todo = t1 ++ Frame.mk a true :: t2 →
    a ∈ ip ∧ ∃ f ∈ t1, f.node = a ∧ f.processed = false

theorem selfLoopInv_init {a : α} {vis : List α} (h : a ∉ vis) :
    SelfLoopInv a [Frame.mk a false] [] vis := by
  refine ⟨h, ⟨Frame.mk a false, List.mem_cons_self _ _, rfl⟩, ?_⟩
  intro t1 t2 ht
  exfalso
  have h2 : Frame.mk a true ∈ [Frame.mk a false] := by
    rw [ht]
    exact List.mem_append_right _ (List.mem_cons_self _ _)
  simp at h2

theorem selfLoopInv_close {a n : α} {todo : List (Frame α)} {ip vis : List α}
    (hP : SelfLoopInv a (Frame.mk n true :: todo) ip vis) :
    SelfLoopInv a todo (ip.erase n) (jsSetAdd vis n) := by
  obtain ⟨hnv, ⟨f, hf, hfa⟩, hpos⟩ := hP
  by_cases hna : n = a
  · subst hna
    obtain ⟨-, f2, hf2, -⟩ := hpos [] todo rfl
    exact absurd hf2 (List.not_mem_nil f2)
  · refine ⟨?_, ?_, ?_⟩
    · intro hmem
      rcases mem_jsSetAdd.mp hmem with h | h
      · exact hnv h
      · exact hna h.symm
    · rcases List.mem_cons.mp hf with h | h
      · exfalso
        rw [h] at hfa
        exact hna hfa
      · exact ⟨f, h, hfa⟩
    · intro t1 t2 ht
      obtain ⟨hip, f2, hf2, hf2a, hf2p⟩ := hpos (Frame.mk n true :: t1) t2 (by rw [ht]; rfl)
      refine ⟨(List.mem_erase_of_ne (fun hh => hna hh.symm)).mpr hip, ?_⟩
      rcases List.mem_cons.mp hf2 with h | h
      · exfalso
        rw [h] at hf2p
        exact Bool.noConfusion hf2p
      · exact ⟨f2, h, hf2a, hf2p⟩

theorem selfLoopInv_vis {a n : α} {todo : List (Frame α)} {ip vis : List α}
    (hP : SelfLoopInv a (Frame.mk n false :: todo) ip vis) (hv : n ∈ vis) :
    SelfLoopInv a todo ip vis := by
  obtain ⟨hnv, ⟨f, hf, hfa⟩, hpos⟩ := hP
  refine ⟨hnv, ?_, ?_⟩
  · rcases List.mem_cons.mp hf with h | h
    · exfalso
      rw [h] at hfa
      exact hnv (hfa ▸ hv)
    · exact ⟨f, h, hfa⟩
  · intro t1 t2 ht
    obtain ⟨hip, f2, hf2, hf2a, hf2p⟩ := hpos (Frame.mk n false :: t1) t2 (by rw [ht]; rfl)
    refine ⟨hip, ?_⟩
    rcases List.mem_cons.mp hf2 with h | h
    · exfalso
      rw [h] at hf2a
      exact hnv (hf2a ▸ hv)
    · exact ⟨f2, h, hf2a, hf2p⟩

theorem selfLoopInv_exp {edges : List (α × List α)} {a n : α} {todo : List (Frame α)}
    {ip vis : List α} (ha : a ∈ adjOf edges a)
    (hP : SelfLoopInv a (Frame.mk n false :: todo) ip vis) (hip : n ∉ ip) :
    SelfLoopInv a
      ((adjOf edges n).map (fun c => Frame.mk c false) ++ Frame.mk n true :: todo)
      (jsSetAdd ip n) vis := by
  obtain ⟨hnv, ⟨f, hf, hfa⟩, hpos⟩ := hP
  refine ⟨hnv, ?_, ?_⟩
  · rcases List.mem_cons.mp hf with h | h
    · refine ⟨Frame.mk n true, List.mem_append_right _ (List.mem_cons_self _ _), ?_⟩
      rw [h] at hfa
      exact hfa
    · exact ⟨f, List.mem_append_right _ (List.mem_cons_of_mem _ h), hfa⟩
  · intro t1 t2 ht
    rcases split_middle_cases ht with hmem | ⟨h1, h2, h3⟩ | ⟨t1b, h1, h2⟩
    · exfalso
      rcases List.mem_map.mp hmem with ⟨c, -, hc⟩
      exact Bool.noConfusion (congrArg Frame.processed hc)
    · obtain ⟨hn2, -⟩ := Frame.mk.inj h2
      subst hn2
      refine ⟨self_mem_jsSetAdd, Frame.mk a false, ?_, rfl, rfl⟩
      rw [h1]
      exact List.mem_map_of_mem _ ha
    · obtain ⟨hip2, f2, hf2, hf2a, hf2p⟩ := hpos (Frame.mk n false :: t1b) t2 (by rw [h2]; rfl)
      refine ⟨subset_jsSetAdd hip2, ?_⟩
      rcases List.mem_cons.mp hf2 with h | h
      · exfalso
        rw [h] at hf2a
        have hna : n = a := hf2a
        exact hip (hna ▸ hip2)
      · refine ⟨f2, ?_, hf2a, hf2p⟩
        rw [h1]
        exact List.mem_append_right _ (List.mem_cons_of_mem _ h)

theorem dfsLoop_self_loop_no_done {edges : List (α × List α)} {flt : Bool} {a : α}
    (ha : a ∈ adjOf edges a) (fuel : Nat) (v r vis res : List α) (hs : a ∉ vis) :
    dfsLoop edges flt false fuel [Frame.mk a false] [] [] vis res
      ≠ some (DfsOut.done v r) := by
  intro hrun
  obtain ⟨ip2, cp2, hP⟩ := dfsLoop_invariant edges flt false
    (fun todo ip cp2 vis2 res2 => SelfLoopInv a todo ip vis2)
    (fun n todo ip cp vis2 res2 hP => selfLoopInv_close hP)
    (fun n todo ip cp vis2 res2 hP hv => selfLoopInv_vis hP hv)
    (fun n todo ip cp vis2 res2 hc => absurd hc Bool.false_ne_true)
    (fun n todo ip cp vis2 res2 hP hv hip => selfLoopInv_exp ha hP hip)
    fuel [Frame.mk a false] [] [] vis res (selfLoopInv_init hs) v r hrun
  obtain ⟨-, ⟨f, hf, -⟩, -⟩ := hP
  exact absurd hf (List.not_mem_nil f)

theorem dfsRun_self_loop_never_ok {edges : List (α × List α)} {flt : Bool} {fuel : Nat}
    {a : α} {st st2 : DfsState α} (ha : a ∈ adjOf edges a) (hs : a ∉ st.visited) :
    dfsRun edges flt false fuel st a ≠ some (Except.ok st2) := by
  intro h
  unfold dfsRun at h
  rw [if_neg hs] at h
  rcases hl : dfsLoop edges flt false fuel [Frame.mk a false] [] [] st.visited st.result
    with _ | o
  · rw [hl] at h
    exact Option.noConfusion h
  · rw [hl] at h
    rcases o with p | ⟨v, r⟩
    · exact Except.noConfusion (Option.some.inj h)
    · exact dfsLoop_self_loop_no_done ha fuel v r st.visited st.result hs hl

theorem getDependenciesOf_self_loop_no_ok {g : DependencyGraph α} {a : α} {flt : Bool}
    {fuel : Nat} {l : List α} (ha : a ∈ adjOf g.outgoingEdges a)
    (hcirc : g.allowCircularDependencies = false) :
    getDependenciesOf g a flt fuel ≠ some (Except.ok l) := by
  intro h
  obtain ⟨-, st, hr, -⟩ := getDependenciesOf_ok h
  rw [hcirc] at hr
  exact dfsRun_self_loop_never_ok ha (List.not_mem_nil a) hr

theorem getDependenciesOf_self_loop_err {g : DependencyGraph α} {a : α} (flt : Bool)
    (ha : a ∈ adjOf g.outgoingEdges a) (han : a ∈ g.nodes)
    (hcirc : g.allowCircularDependencies = false) :
    ∃ fuel p, getDependenciesOf g a flt fuel
      = some (Except.error (GraphError.circular p)) := by
  obtain ⟨fuel, r, h⟩ := getDependenciesOf_term g a flt
  rcases r with e | l
  · rcases e with _ | p
    · exfalso
      unfold getDependenciesOf at h
      rw [if_pos han] at h
      rcases hl : dfsRun g.outgoingEdges flt g.allowCircularDependencies fuel
          (DfsState.mk [] []) a with _ | r2
      · rw [hl] at h
        exact Option.noConfusion h
      · rw [hl] at h
        rcases r2 with p | st
        · exact GraphError.noConfusion (Except.error.inj (Option.some.inj h))
        · exact Except.noConfusion (Option.some.inj h)
    · exact ⟨fuel, p, h⟩
  · exact absurd h (getDependenciesOf_self_loop_no_ok ha hcirc)

theorem getDependenciesOf_circ_true_ok {g : DependencyGraph α} {a : α} (flt : Bool)
    (han : a ∈ g.nodes) (hcirc : g.allowCircularDependencies = true) :
    ∃ fuel l, getDependenciesOf g a flt fuel = some (Except.ok l) ∧ a ∉ l := by
  obtain ⟨fuel, r, h⟩ := getDependenciesOf_term g a flt
  rcases r with e | l
  · exfalso
    unfold getDependenciesOf at h
    rw [if_pos han] at h
    rcases hl : dfsRun g.outgoingEdges flt g.allowCircularDependencies fuel
        (DfsState.mk [] []) a with _ | r2
    · rw [hl] at h
      exact Option.noConfusion h
    · rw [hl] at h
      rcases r2 with p | st
      · rw [hcirc] at hl
        exact dfsRun_circ_true_no_err hl
      · exact Except.noConfusion (Option.some.inj h)
  · exact ⟨fuel, l, h, getDependenciesOf_not_self h⟩

theorem addDependency_self_edge {g g2 : DependencyGraph α} {a : α} (hwf : WellFormed g)
    (han : a ∈ g.nodes) (h : addDependency g a a = Except.ok g2) :
    a ∈ adjOf g2.outgoingEdges a ∧
      g2.allowCircularDependencies = g.allowCircularDependencies ∧ g2.nodes = g.nodes := by
  unfold addDependency at h
  rw [if_neg (not_not.mpr han), if_neg (not_not.mpr han)] at h
  have h2 : g2 = { g with
      outgoingEdges := mapUpdate g.outgoingEdges a (fun s => jsSetAdd s a),
      incomingEdges := mapUpdate g.incomingEdges a (fun s => jsSetAdd s a) } :=
    (Except.ok.inj h).symm
  subst h2
  refine ⟨?_, rfl, rfl⟩
  show a ∈ mapGetD (mapUpdate g.outgoingEdges a (fun s => jsSetAdd s a)) a
  rw [mapGetD_mapUpdate_self (by rw [hwf.2.1]; exact han)]
  exact self_mem_jsSetAdd

/-- The graph with nodes `0`, `1` and edges `0 → 1`, `1 → 0`, reached from the
empty graph; basis of the C10 counterexample before the self-loop is added. -/
def gC10base : DependencyGraph Nat :=
  applyOps [GraphOp.addNode 0, GraphOp.addNode 1, GraphOp.addDependency 0 1,
    GraphOp.addDependency 1 0] DependencyGraph.empty

/-- `gC10base` with the self-loop edge `0 → 0` added on top. -/
def gC10cex : DependencyGraph Nat :=
  applyOps [GraphOp.addNode 0, GraphOp.addNode 1, GraphOp.addDependency 0 1,
    GraphOp.addDependency 1 0, GraphOp.addDependency 0 0] DependencyGraph.empty

/-- C10 counterexample: in the graph with edges `0 → 1`, `1 → 0`, adding the
self-loop `0 → 0` succeeds, but `getDependenciesOf 0` with cycles disallowed
then reports the circular path `[0, 1, 0]` — the traversal meets the cycle
through node `1` first — and not the claimed path `[0, 0]`. -/
theorem c10_counterexample :
    addDependency gC10base 0 0 = Except.ok gC10cex ∧
    getDependenciesOf gC10cex 0 false 100
      = some (Except.error (GraphError.circular [0, 1, 0])) ∧
    ([0, 1, 0] : List Nat) ≠ [0, 0] :=
  ⟨rfl, rfl, by decide⟩

/-- C10 amended: for a node `a` of a well-formed graph, `addDependency(a, a)`
succeeds and installs the self-edge.  Afterwards, with cycles disallowed,
`getDependenciesOf(a)` never returns a result and some fuel yields the
circular-dependency error — whose path, however, is the traversal's current
path and need not be `[a, a]`.  With cycles allowed, any returned result
excludes `a`, and some fuel does return a result. -/
theorem c10_self_loop (g : DependencyGraph α) (a : α) (flt : Bool)
    (hwf : WellFormed g) (han : a ∈ g.nodes) :
    ∃ g2, addDependency g a a = Except.ok g2 ∧
      a ∈ adjOf g2.outgoingEdges a ∧
      (g.allowCircularDependencies = false →
        (∀ fuel l, getDependenciesOf g2 a flt fuel ≠ some (Except.ok l)) ∧
        ∃ fuel p, getDependenciesOf g2 a flt fuel
          = some (Except.error (GraphError.circular p))) ∧
      (g.allowCircularDependencies = true →
        (∀ fuel l, getDependenciesOf g2 a flt fuel = some (Except.ok l) → a ∉ l) ∧
        ∃ fuel l, getDependenciesOf g2 a flt fuel = some (Except.ok l) ∧ a ∉ l) := by
  have hok : ∃ g2, addDependency g a a = Except.ok g2 := by
    unfold addDependency
    rw [if_neg (not_not.mpr han), if_neg (not_not.mpr han)]
    exact ⟨_, rfl⟩
  obtain ⟨g2, hg2⟩ := hok
  obtain ⟨hedge, hcirc, hnodes⟩ := addDependency_self_edge hwf han hg2
  refine ⟨g2, hg2, hedge, ?_, ?_⟩
  · intro hfalse
    have hc2 : g2.allowCircularDependencies = false := by rw [hcirc, hfalse]
    refine ⟨fun fuel l => getDependenciesOf_self_loop_no_ok hedge hc2, ?_⟩
    exact getDependenciesOf_self_loop_err flt hedge (by rw [hnodes]; exact han) hc2
  · intro htrue
    have hc2 : g2.allowCircularDependencies = true := by rw [hcirc, htrue]
    exact ⟨fun fuel l h => getDependenciesOf_not_self h,
      getDependenciesOf_circ_true_ok flt (by rw [hnodes]; exact han) hc2⟩

/-- Witness for the amended C10 at a concrete input. -/
theorem c10_self_loop_witness :
    ∃ g2, addDependency gC10base 0 0 = Except.ok g2 ∧
      0 ∈ adjOf g2.outgoingEdges 0 ∧
      (gC10base.allowCircularDependencies = false →
        (∀ fuel l, getDependenciesOf g2 0 false fuel ≠ some (Except.ok l)) ∧
        ∃ fuel p, getDependenciesOf g2 0 false fuel
          = some (Except.error (GraphError.circular p))) ∧
      (gC10base.allowCircularDependencies = true →
        (∀ fuel l, getDependenciesOf g2 0 false fuel = some (Except.ok l) → 0 ∉ l) ∧
        ∃ fuel l, getDependenciesOf g2 0 false fuel = some (Except.ok l) ∧ 0 ∉ l) :=
  c10_self_loop gC10base 0 false (by unfold WellFormed; decide) (by decide)
